import Mathlib

/-! # textc: the pattern rewriter, the identifier deriver and the byte-array emitter

A shallow embedding of `src/textc/textc_main.cpp`.

* A `std::string` is a `List Nat`: the list of its characters, each given by its
  unsigned byte value (`'a'` is `97`).  `str` turns a literal into such a list.
* `std::size_t` is `Nat`.  Every offset that the program computes is bounded by the
  size of a buffer, so no `size_t` operation wraps.
* `std::regex_search(s, sm, reg)` for a fixed `reg` is a function from the searched string
  to the optional match result (`Pattern`).  The two regular expressions that the program
  itself writes down are built from `regex_search`, a backtracking matcher for sequences of
  quantified character classes.
* The `while` loop of `textc::transform` need not terminate, so it carries fuel: `none` means
  that the fuel ran out, never that the program returned.
* `textc_assert` aborts when the build is a debug build (`NDEBUG` not defined) and does
  nothing otherwise; `debug : Bool` is the build flavour.
-/

/-- The characters of a literal, as byte values. -/
def str (s : String) : List Nat := s.toList.map Char.toNat

/-- How a call ends when it does end: normally, in a failed `textc_assert` (debug builds only),
or in the `std::out_of_range` exception of `std::string::replace`. -/
inductive Outcome (α : Type) where
  | ok (value : α)
  | assertFailure
  | outOfRange
  deriving DecidableEq, Repr

namespace std

/-- Value of `std::string::npos`. -/
def npos : Nat := 2 ^ 64 - 1

/-- Search of `std::string::find`, from offset `i` on: the offset of the first place at or after
`i` where `sub` occurs, counted from the start of the whole string. `s` is what remains of the
string from offset `i`. -/
def findFrom (sub : List Nat) : List Nat → Nat → Nat
  | [], i => if sub.isPrefixOf [] then i else npos
  | c :: s, i => if sub.isPrefixOf (c :: s) then i else findFrom sub s (i + 1)

/-- Function `source.find(sub)`: the offset of the first occurrence of `sub` in `source`, `npos`
when there is none. -/
def find (source sub : List Nat) : Nat := findFrom sub source 0

/-- Function `s.replace(pos, len, r)`: throws `std::out_of_range` when `pos > s.size()`; otherwise
the `min(len, s.size() - pos)` characters from `pos` on are replaced by `r`. -/
def replace (s : List Nat) (pos len : Nat) (r : List Nat) : Outcome (List Nat) :=
  if s.length < pos then .outOfRange
  else .ok (s.take pos ++ r ++ s.drop (pos + min len (s.length - pos)))

/-- Result of a successful `std::regex_search`: `position` and `length` are `sm.position()` and
`sm.length()`, and `subs` lists `sm[0]`, `sm[1]`, ..., `sm[sm.size() - 1]`. -/
structure smatch where
  position : Nat
  length : Nat
  subs : List (List Nat)
  deriving DecidableEq, Repr

end std

/-- What a `std::regex` does in `std::regex_search(s, sm, reg)`: `none` is the result `false`,
`some sm` is `true` together with the match results. -/
abbrev Pattern := List Nat → Option std.smatch

/-- A match lies inside the string that was searched. -/
def Pattern.WellFormed (reg : Pattern) : Prop :=
  ∀ s sm, reg s = some sm → sm.position + sm.length ≤ s.length

/-- No match of the pattern is empty. -/
def Pattern.NonEmptyMatches (reg : Pattern) : Prop :=
  ∀ s sm, reg s = some sm → 0 < sm.length

namespace textc

/-- A replacement job `{{pos, len}, replacement}`. -/
abbrev ReplaceJob := (Nat × Nat) × List Nat

/-- The scan loop of `transform` (`while(std::regex_search(src_copy, sm, reg))`).
The state is `src_copy`, `src_pos_counter` and `replacements`; the result is the list of jobs
with which the loop exits. -/
def scan (debug : Bool) (source : List Nat) (reg : Pattern)
    (transform_function : List (List Nat) → List Nat) :
    Nat → List Nat → Nat → List ReplaceJob → Option (Outcome (List ReplaceJob))
  | 0, _, _, _ => none
  | fuel + 1, src_copy, src_pos_counter, replacements =>
    match reg src_copy with
    | none => some (.ok replacements)
    | some sm =>
      let pos := sm.position + src_pos_counter
      if debug && !decide (pos < source.length) then some .assertFailure
      else
        let len := sm.length
        let inner_matches := sm.subs.drop 1
        let src_copy' := src_copy.drop (sm.position + sm.length)
        let src_pos_counter' := std.find source src_copy'
        let replacement := transform_function inner_matches
        scan debug source reg transform_function fuel src_copy' src_pos_counter'
          (replacements ++ [((pos, len), replacement)])

/-- The loop `for(auto i = replacements.rbegin(); i != replacements.rend(); i++)` of `transform`,
given the jobs from last to first. -/
def applyReversed : List ReplaceJob → List Nat → Outcome (List Nat)
  | [], source => .ok source
  | job :: rest, source =>
    match std.replace source job.1.1 job.1.2 job.2 with
    | .ok source' => applyReversed rest source'
    | .assertFailure => .assertFailure
    | .outOfRange => .outOfRange

/-- The replacement loop of `transform` on the jobs in the order in which they were pushed. -/
def applyReplacements (replacements : List ReplaceJob) (source : List Nat) : Outcome (List Nat) :=
  applyReversed replacements.reverse source

/-- Function `textc::transform`: the final `source` and the returned `did_any_work`. -/
def transform (debug : Bool) (fuel : Nat) (source : List Nat) (reg : Pattern)
    (transform_function : List (List Nat) → List Nat) : Option (Outcome (List Nat × Bool)) :=
  match scan debug source reg transform_function fuel source 0 [] with
  | none => none
  | some .assertFailure => some .assertFailure
  | some .outOfRange => some .outOfRange
  | some (.ok replacements) =>
    let did_any_work := !replacements.isEmpty
    match applyReplacements replacements source with
    | .ok source' => some (.ok (source', did_any_work))
    | .assertFailure => some .assertFailure
    | .outOfRange => some .outOfRange

end textc

/-! ## The regular expressions of the program

`headerify` builds two `std::regex` objects from literals, both in the default ECMAScript
grammar.  Each is a sequence of character classes, every class taken once or under a greedy
`*` or `+`, some of them inside a capturing group.  `regex_search` is the backtracking matcher for
such sequences: the leftmost start position wins, and at a start position a greedy quantifier
first takes as many characters as it can and gives them back one at a time. -/

namespace std

/-- How often a character class is taken. -/
inductive Quantifier where
  | one
  | star
  | plus
  deriving DecidableEq, Repr

/-- One item of a regular expression: a character class, its quantifier, and whether the item is
a capturing group. -/
structure Atom where
  cls : Nat → Bool
  quantifier : Quantifier
  capture : Bool

/-- Greedy backtracking over the number of characters a quantified class takes: the counts
`k`, `k - 1`, ..., `lo` are tried in this order, and the first for which the rest of the
expression (`cont`) matches what follows wins. The result is the count taken and the result of
`cont`. -/
def backtrack (cont : List Nat → Option (Nat × List (List Nat))) (s : List Nat) (lo : Nat) :
    Nat → Option (Nat × Nat × List (List Nat))
  | 0 => if lo = 0 then (cont s).map (fun r => (0, r)) else none
  | k + 1 =>
    if k + 1 < lo then none
    else
      match cont (s.drop (k + 1)) with
      | some r => some (k + 1, r)
      | none => backtrack cont s lo k

/-- Match of a sequence of atoms at the start of `s`: the number of characters matched and the
captured groups, in order. -/
def matchHere : List Atom → List Nat → Option (Nat × List (List Nat))
  | [], _ => some (0, [])
  | a :: rest, s =>
    match a.quantifier with
    | .one =>
      match s with
      | [] => none
      | c :: t =>
        if a.cls c then
          (matchHere rest t).map
            (fun r => (r.1 + 1, if a.capture then [c] :: r.2 else r.2))
        else none
    | .star =>
      (backtrack (matchHere rest) s 0 (s.takeWhile a.cls).length).map
        (fun r => (r.1 + r.2.1, if a.capture then s.take r.1 :: r.2.2 else r.2.2))
    | .plus =>
      (backtrack (matchHere rest) s 1 (s.takeWhile a.cls).length).map
        (fun r => (r.1 + r.2.1, if a.capture then s.take r.1 :: r.2.2 else r.2.2))

/-- Search for the leftmost match: `s` is what remains of the searched string from offset `i`. -/
def searchFrom (re : List Atom) : List Nat → Nat → Option smatch
  | [], i =>
    match matchHere re [] with
    | some r => some ⟨i, r.1, [] :: r.2⟩
    | none => none
  | c :: s, i =>
    match matchHere re (c :: s) with
    | some r => some ⟨i, r.1, (c :: s).take r.1 :: r.2⟩
    | none => searchFrom re s (i + 1)

/-- Function `std::regex_search(s, sm, std::regex{re})` for a regular expression that is a
sequence of atoms. -/
def regex_search (re : List Atom) : Pattern := fun s => searchFrom re s 0

/-- Loop of `std::regex_replace`: every match is replaced by `fmt`, the text between the matches
is copied. -/
def regex_replace_loop (re : List Atom) (fmt : List Nat) : Nat → List Nat → List Nat
  | 0, s => s
  | fuel + 1, s =>
    match regex_search re s with
    | none => s
    | some sm =>
      s.take sm.position ++ fmt ++
        regex_replace_loop re fmt fuel (s.drop (sm.position + sm.length))

/-- Function `std::regex_replace(s, std::regex{re}, fmt)` for a regular expression whose matches
are not empty and a format string without `$`. -/
def regex_replace (s : List Nat) (re : List Atom) (fmt : List Nat) : List Nat :=
  regex_replace_loop re fmt (s.length + 1) s

/-- Class `.` of the ECMAScript grammar: any character but a line terminator. -/
def anyChar (c : Nat) : Bool := c != 10 && c != 13

/-- Class `[\/\\]`. -/
def slashClass (c : Nat) : Bool := c == 47 || c == 92

/-- Class `[a-zA-Z_0-9]`. -/
def wordClass (c : Nat) : Bool :=
  (97 ≤ c && c ≤ 122) || (65 ≤ c && c ≤ 90) || c == 95 || (48 ≤ c && c ≤ 57)

/-- Class `[a-zA-Z]`. -/
def alphaClass (c : Nat) : Bool := (97 ≤ c && c ≤ 122) || (65 ≤ c && c ≤ 90)

/-- Class `\.`. -/
def dotClass (c : Nat) : Bool := c == 46

/-- A regular expression that is one literal string. -/
def literal (text : List Nat) : List Atom :=
  text.map (fun c => ⟨fun d => d == c, .one, false⟩)

end std

/-- The regular expression `.*[\/\\]([a-zA-Z_0-9]+)\.([a-zA-Z]+)` of `headerify`. -/
def pathRegex : List std.Atom :=
  [⟨std.anyChar, .star, false⟩, ⟨std.slashClass, .one, false⟩, ⟨std.wordClass, .plus, true⟩,
   ⟨std.dotClass, .one, false⟩, ⟨std.alphaClass, .plus, true⟩]

/-- The regular expression `\.` of `headerify`. -/
def dotRegex : List std.Atom := [⟨std.dotClass, .one, false⟩]

/-- Function `std::to_string(unsigned)`, most significant digit first; `fuel` bounds the number
of digits. -/
def natDigits : Nat → Nat → List Nat
  | 0, _ => []
  | fuel + 1, n => if n < 10 then [48 + n] else natDigits fuel (n / 10) ++ [48 + n % 10]

namespace std

/-- Function `std::to_string(int)`: the decimal digits, after a `-` for a negative number. -/
def to_string (i : Int) : List Nat :=
  if i < 0 then 45 :: natDigits ((-i).toNat + 1) (-i).toNat else natDigits (i.toNat + 1) i.toNat

end std

/-- Conversion `static_cast<std::int8_t>(c)` of a character given by its byte value. -/
def toInt8 (c : Nat) : Int := if c % 256 < 128 then (c % 256 : Nat) else (c % 256 : Nat) - 256

/-- Function `std_bytenise`: the `for` loop over the indices `0 .. size - 1`. -/
def std_bytenise (binary_data : List Nat) : List Nat :=
  (List.range binary_data.length).foldl
    (fun res i =>
      let res := res ++ std.to_string (toInt8 (binary_data.getD i 0))
      if i ≠ binary_data.length - 1 then res ++ [44] else res)
    []

/-- The identifier that `headerify` derives from the file name: `filename_cpy` after
`textc::transform` with the path expression and the replacement of every dot. -/
def headerifyIdentifier (debug : Bool) (fuel : Nat) (filename : List Nat) :
    Option (Outcome (List Nat)) :=
  match textc.transform debug fuel filename (std.regex_search pathRegex)
      (fun inner => inner.getD 0 [] ++ str "_" ++ inner.getD 1 []) with
  | none => none
  | some .assertFailure => some .assertFailure
  | some .outOfRange => some .outOfRange
  | some (.ok (filename_cpy, _)) => some (.ok (std.regex_replace filename_cpy dotRegex (str "_")))

/-- Function `headerify`: the new value of `text`. -/
def headerify (debug : Bool) (fuel : Nat) (filename text : List Nat) :
    Option (Outcome (List Nat)) :=
  match headerifyIdentifier debug fuel filename with
  | none => none
  | some .assertFailure => some .assertFailure
  | some .outOfRange => some .outOfRange
  | some (.ok filename_cpy) =>
    let byte_count := text.length
    let buffer_array_literal := std_bytenise text
    some (.ok (str "#include <cstdint>\n#include <array>\n/*textc_gen_header*/constexpr std::array<std::int8_t, "
      ++ std.to_string byte_count ++ str "> " ++ filename_cpy ++ str "\x7b"
      ++ buffer_array_literal ++ str "\x7d;"))

/-! ## Reference definitions

The definitions of this section are not taken from the program: they say what the program is
compared with. -/

namespace textc

/-- Reference scan: like `scan`, but the base offset of the remaining working copy is tracked
arithmetically (new base = absolute match offset + match length) and not recovered with
`source.find`. -/
def scanArith (reg : Pattern) (transform_function : List (List Nat) → List Nat) :
    Nat → List Nat → Nat → List ReplaceJob → Option (List ReplaceJob)
  | 0, _, _, _ => none
  | fuel + 1, src_copy, base, replacements =>
    match reg src_copy with
    | none => some replacements
    | some sm =>
      let pos := sm.position + base
      scanArith reg transform_function fuel (src_copy.drop (sm.position + sm.length))
        (pos + sm.length) (replacements ++ [((pos, sm.length), transform_function (sm.subs.drop 1))])

/-- Reference rewrite: the jobs of `scanArith`, applied like those of `transform`. -/
def transformArith (fuel : Nat) (source : List Nat) (reg : Pattern)
    (transform_function : List (List Nat) → List Nat) : Option (Outcome (List Nat × Bool)) :=
  match scanArith reg transform_function fuel source 0 [] with
  | none => none
  | some replacements =>
    match applyReplacements replacements source with
    | .ok source' => some (.ok (source', !replacements.isEmpty))
    | .assertFailure => some .assertFailure
    | .outOfRange => some .outOfRange

/-- Reference rewrite, said directly: the text up to the first match, the replacement of that
match, and the rewritten rest; the flag tells whether there was a match. -/
def rewriteAll (reg : Pattern) (transform_function : List (List Nat) → List Nat) :
    Nat → List Nat → Option (List Nat × Bool)
  | 0, _ => none
  | fuel + 1, text =>
    match reg text with
    | none => some (text, false)
    | some sm =>
      match rewriteAll reg transform_function fuel (text.drop (sm.position + sm.length)) with
      | none => none
      | some rest =>
        some (text.take sm.position ++ transform_function (sm.subs.drop 1) ++ rest.1, true)

/-- Reference strategy for applying jobs: in ascending order, every offset shifted by the
accumulated difference (replacement length minus span length) of the jobs applied before. -/
def applyAscending : List ReplaceJob → Int → List Nat → Outcome (List Nat)
  | [], _, buffer => .ok buffer
  | job :: rest, shift, buffer =>
    match std.replace buffer ((job.1.1 : Int) + shift).toNat job.1.2 job.2 with
    | .ok buffer' => applyAscending rest (shift + ((job.2.length : Int) - (job.1.2 : Int))) buffer'
    | .assertFailure => .assertFailure
    | .outOfRange => .outOfRange

/-- The buffer in which every span of an ascending list of jobs is replaced, from offset `lo`
on. -/
def spliced (buffer : List Nat) : Nat → List ReplaceJob → List Nat
  | lo, [] => buffer.drop lo
  | lo, job :: rest =>
    (buffer.drop lo).take (job.1.1 - lo) ++ job.2 ++ spliced buffer (job.1.1 + job.1.2) rest

/-- Consecutive spans do not overlap and come in increasing order: `pos_i + len_i <= pos_{i+1}`
for every job and the one after it. -/
def spansIncrease : List ReplaceJob → Bool
  | [] => true
  | [_] => true
  | a :: b :: rest => decide (a.1.1 + a.1.2 ≤ b.1.1) && spansIncrease (b :: rest)

end textc

/-- An alphanumeric character or an underscore. -/
def identifierChar (c : Nat) : Bool :=
  (48 ≤ c && c ≤ 57) || (65 ≤ c && c ≤ 90) || (97 ≤ c && c ≤ 122) || c == 95

/-- A line terminator of the regular expression grammar. -/
def lineTerminator (c : Nat) : Bool := c == 10 || c == 13

/-- The decimal rendering of an integer. -/
def decimal (i : Int) : List Nat := str (toString i)

/-- The value of a byte read as a signed 8-bit integer. -/
def signedValue (b : Nat) : Int := if b < 128 then (b : Int) else (b : Int) - 256

/-! ## Definitions used in the proofs -/

namespace textc

/-- Bound that keeps the splices in range. The jobs are listed from last to first, `deleted`
bounds the number of characters that the splices made so far have removed, and every job ends
at least `deleted` characters before the offset `size`. -/
def FitsReversed (size : Nat) : Nat → List ReplaceJob → Prop
  | _, [] => True
  | deleted, job :: rest =>
    job.1.1 + job.1.2 + deleted ≤ size ∧ FitsReversed size (deleted + job.1.2) rest

/-- Jobs in ascending order, none starting before `lo`, none ending after `size`, each ending
where or before the next one starts. -/
def SpansAscending (size : Nat) : Nat → List ReplaceJob → Prop
  | lo, [] => lo ≤ size
  | lo, job :: rest => lo ≤ job.1.1 ∧ SpansAscending size (job.1.1 + job.1.2) rest

end textc

/-- What the dot pass of `headerify` does to one character. -/
def dotToUnderscore (c : Nat) : Nat := if c = 46 then 95 else c

/-- An ASCII letter. -/
def asciiLetter (c : Nat) : Bool := (65 ≤ c && c ≤ 90) || (97 ≤ c && c ≤ 122)

/-! ## The scan loop with a record of what it does -/

namespace textc

/-- What an observer of the scan loop sees: the matches that `std::regex_search` reports, in
order, and the argument lists with which `transform_function` is called, in order. -/
structure ScanLog where
  found : List std.smatch
  calls : List (List (List Nat))
  deriving DecidableEq, Repr

/-- The scan loop of `transform`, as `scan`, with the record: a match is recorded where
`std::regex_search` returns `true`, a call where `transform_function` is applied to
`inner_matches`. The record is kept also when the loop does not exit within the fuel. -/
def scanLogged (debug : Bool) (source : List Nat) (reg : Pattern)
    (transform_function : List (List Nat) → List Nat) :
    Nat → List Nat → Nat → List ReplaceJob → ScanLog →
      ScanLog × Option (Outcome (List ReplaceJob))
  | 0, _, _, _, log => (log, none)
  | fuel + 1, src_copy, src_pos_counter, replacements, log =>
    match reg src_copy with
    | none => (log, some (.ok replacements))
    | some sm =>
      let log := { log with found := log.found ++ [sm] }
      let pos := sm.position + src_pos_counter
      if debug && !decide (pos < source.length) then (log, some .assertFailure)
      else
        let len := sm.length
        let inner_matches := sm.subs.drop 1
        let src_copy' := src_copy.drop (sm.position + sm.length)
        let src_pos_counter' := std.find source src_copy'
        let log := { log with calls := log.calls ++ [inner_matches] }
        let replacement := transform_function inner_matches
        scanLogged debug source reg transform_function fuel src_copy' src_pos_counter'
          (replacements ++ [((pos, len), replacement)]) log

/-- The working copies that follow the matches of the scan: `src_copy` after the first
iteration, after the second, and so on. -/
def workingCopies (reg : Pattern) : Nat → List Nat → List (List Nat)
  | 0, _ => []
  | fuel + 1, src_copy =>
    match reg src_copy with
    | none => []
    | some sm =>
      src_copy.drop (sm.position + sm.length) ::
        workingCopies reg fuel (src_copy.drop (sm.position + sm.length))

end textc

/-! ## Reading the byte list back -/

/-- The pieces of a text between its commas. -/
def splitCommas : List Nat → List (List Nat)
  | [] => [[]]
  | c :: s =>
    if c = 44 then [] :: splitCommas s
    else
      match splitCommas s with
      | [] => [[c]]
      | piece :: pieces => (c :: piece) :: pieces

/-- The number that a string of decimal digits denotes. -/
def parseNat (digits : List Nat) : Nat :=
  digits.foldl (fun acc c => 10 * acc + (c - 48)) 0

/-- The integer that a string of decimal digits with an optional leading `-` denotes. -/
def parseSigned (piece : List Nat) : Int :=
  if piece.head? = some 45 then -(parseNat piece.tail : Int) else (parseNat piece : Int)

/-- Decoder for the output of `std_bytenise`: the text is split at the commas (the empty text
gives the empty list), every piece is read as a signed decimal integer and reduced modulo
256. -/
def decodeBytes (text : List Nat) : List Nat :=
  if text = [] then [] else (splitCommas text).map (fun piece => (parseSigned piece % 256).toNat)

/-! ## Patterns used as inputs -/

/-- The regular expression `\b$` in `std::regex_search`, an input for `transform` and not part
of the program: the empty match at the end of a string whose last character is a word
character, and no match in any other string. -/
def wordBoundaryAtEnd : Pattern := fun s =>
  match s.getLast? with
  | some c => if std.wordClass c then some ⟨s.length, 0, [[]]⟩ else none
  | none => none

/-- The regular expression `x*`, an input for `transform` and not part of the program. -/
def xStarRegex : List std.Atom := [⟨fun c => c == 120, .star, false⟩]

/-! ## Lemmas on the string operations -/

namespace std

theorem replace_of_le {s : List Nat} {pos : Nat} (len : Nat) (r : List Nat)
    (h : pos ≤ s.length) :
    replace s pos len r = .ok (s.take pos ++ r ++ s.drop (pos + len)) := by
  unfold replace
  rw [if_neg (by omega)]
  congr 2
  rcases Nat.le_total len (s.length - pos) with hl | hl
  · rw [Nat.min_eq_left hl]
  · rw [Nat.min_eq_right hl, List.drop_eq_nil_of_le (by omega), List.drop_eq_nil_of_le (by omega)]

theorem replace_of_lt {s : List Nat} {pos : Nat} (len : Nat) (r : List Nat)
    (h : s.length < pos) : replace s pos len r = .outOfRange := by
  unfold replace
  rw [if_pos h]

end std

namespace textc

theorem applyReplacements_nil (source : List Nat) : applyReplacements [] source = .ok source := rfl

theorem applyReplacements_concat (jobs : List ReplaceJob) (job : ReplaceJob) (source : List Nat) :
    applyReplacements (jobs ++ [job]) source =
      match std.replace source job.1.1 job.1.2 job.2 with
      | .ok source' => applyReplacements jobs source'
      | .assertFailure => .assertFailure
      | .outOfRange => .outOfRange := by
  simp [applyReplacements, applyReversed]

theorem applyReplacements_single (job : ReplaceJob) (source : List Nat) :
    applyReplacements [job] source = std.replace source job.1.1 job.1.2 job.2 := by
  have h := applyReplacements_concat [] job source
  simp only [List.nil_append] at h
  rw [h]
  cases std.replace source job.1.1 job.1.2 job.2 <;> rfl

/-- With no match in the buffer the loop is not entered. -/
theorem transform_of_no_match (debug : Bool) (fuel : Nat) (source : List Nat) (reg : Pattern)
    (f : List (List Nat) → List Nat) (h : reg source = none) :
    transform debug (fuel + 1) source reg f = some (.ok (source, false)) := by
  simp [transform, scan, h, applyReplacements, applyReversed]

/-- With one match in the buffer and none after it, one job is collected and spliced in. -/
theorem transform_of_one_match (debug : Bool) (fuel : Nat) (source : List Nat) (reg : Pattern)
    (f : List (List Nat) → List Nat) (sm : std.smatch)
    (hm : reg source = some sm) (hpos : sm.position < source.length)
    (hrest : reg (source.drop (sm.position + sm.length)) = none) :
    transform debug (fuel + 2) source reg f =
      some (.ok (source.take sm.position ++ f (sm.subs.drop 1) ++
        source.drop (sm.position + sm.length), true)) := by
  have hr := std.replace_of_le sm.length (f (sm.subs.drop 1)) (Nat.le_of_lt hpos)
  simp only [List.drop_one] at hr ⊢
  simp [transform, scan, hm, hrest, hpos, applyReplacements_single, hr]

/-- One match inside the buffer and none after it: the job is spliced in whenever the
`textc_assert` passes or the build has no check. -/
theorem transform_of_one_match_inside (debug : Bool) (fuel : Nat) (source : List Nat)
    (reg : Pattern) (f : List (List Nat) → List Nat) (sm : std.smatch)
    (hm : reg source = some sm) (hin : sm.position + sm.length ≤ source.length)
    (hassert : debug = true → sm.position < source.length)
    (hrest : reg (source.drop (sm.position + sm.length)) = none) :
    transform debug (fuel + 2) source reg f =
      some (.ok (source.take sm.position ++ f (sm.subs.drop 1) ++
        source.drop (sm.position + sm.length), true)) := by
  cases debug with
  | true => exact transform_of_one_match true fuel source reg f sm hm (hassert rfl) hrest
  | false =>
    have hr := std.replace_of_le sm.length (f (sm.subs.drop 1))
      (show sm.position ≤ source.length by omega)
    simp only [List.drop_one] at hr ⊢
    simp [transform, scan, hm, hrest, applyReplacements_single, hr]

end textc

/-! ## The scan terminates and the splices stay in range -/

namespace std

theorem findFrom_bounds (sub : List Nat) :
    ∀ (s : List Nat) (i : Nat), sub <:+ s →
      i ≤ findFrom sub s i ∧ findFrom sub s i + sub.length ≤ i + s.length := by
  intro s
  induction s with
  | nil =>
    intro i h
    have hs : sub = [] := List.eq_nil_of_suffix_nil h
    subst hs
    simp [findFrom]
  | cons c s ih =>
    intro i h
    unfold findFrom
    by_cases hp : sub.isPrefixOf (c :: s) = true
    · rw [if_pos hp]
      have hl : sub.length ≤ (c :: s).length := (List.isPrefixOf_iff_prefix.mp hp).length_le
      exact ⟨Nat.le_refl _, by omega⟩
    · rw [if_neg hp]
      rcases List.suffix_cons_iff.mp h with h1 | h1
      · exact absurd (by rw [h1]; exact List.isPrefixOf_iff_prefix.mpr (List.prefix_refl _)) hp
      · have := ih (i + 1) h1
        simp only [List.length_cons]
        omega

/-- The offset that `find` gives for a suffix of the string leaves room for the suffix. -/
theorem find_add_length_le {source sub : List Nat} (h : sub <:+ source) :
    find source sub + sub.length ≤ source.length := by
  have := (findFrom_bounds sub source 0 h).2
  unfold find
  omega

end std

namespace textc

theorem fitsReversed_mono (size : Nat) :
    ∀ (jobs : List ReplaceJob) (d d' : Nat), d' ≤ d → FitsReversed size d jobs →
      FitsReversed size d' jobs := by
  intro jobs
  induction jobs with
  | nil => intro d d' _ _; trivial
  | cons job rest ih =>
    intro d d' hd h
    exact ⟨by have := h.1; omega, ih _ _ (by omega) h.2⟩

/-- Splices that fit never leave the buffer. -/
theorem applyReversed_ok_of_fits (size : Nat) :
    ∀ (jobs : List ReplaceJob) (d : Nat) (buffer : List Nat), FitsReversed size d jobs →
      size ≤ buffer.length + d → ∃ out, applyReversed jobs buffer = .ok out := by
  intro jobs
  induction jobs with
  | nil => intro d buffer _ _; exact ⟨buffer, rfl⟩
  | cons job rest ih =>
    intro d buffer h hsize
    have h1 := h.1
    have hle : job.1.1 ≤ buffer.length := by omega
    unfold applyReversed
    rw [std.replace_of_le job.1.2 job.2 hle]
    apply ih (d + job.1.2) _ h.2
    simp only [List.length_append, List.length_take, List.length_drop]
    omega

/-- The scan loop exits for a pattern whose matches are inside the searched text and not empty,
no `textc_assert` fails on the way, and the jobs it collects fit. -/
theorem scan_total (debug : Bool) (source : List Nat) (reg : Pattern)
    (f : List (List Nat) → List Nat) (hwf : reg.WellFormed) (hne : reg.NonEmptyMatches) :
    ∀ (fuel : Nat) (src_copy : List Nat) (src_pos_counter : Nat) (jobs : List ReplaceJob),
      src_copy.length < fuel → src_copy <:+ source →
      src_pos_counter + src_copy.length ≤ source.length →
      FitsReversed source.length src_copy.length jobs.reverse →
      ∃ jobs', scan debug source reg f fuel src_copy src_pos_counter jobs = some (.ok jobs') ∧
        FitsReversed source.length 0 jobs'.reverse := by
  intro fuel
  induction fuel with
  | zero => intro src_copy _ _ h; exact absurd h (Nat.not_lt_zero _)
  | succ fuel ih =>
    intro src_copy spc jobs hfuel hsuf hspc hfits
    unfold scan
    cases hm : reg src_copy with
    | none => exact ⟨jobs, rfl, fitsReversed_mono _ _ _ _ (Nat.zero_le _) hfits⟩
    | some sm =>
      have h1 := hwf _ _ hm
      have h2 := hne _ _ hm
      have hpos : sm.position + spc < source.length := by omega
      have hsuf' : src_copy.drop (sm.position + sm.length) <:+ source :=
        (List.drop_suffix _ _).trans hsuf
      have hfind := std.find_add_length_le hsuf'
      have hlen : (src_copy.drop (sm.position + sm.length)).length
          = src_copy.length - (sm.position + sm.length) := List.length_drop _ _
      simp only [hpos, decide_True, Bool.not_true, Bool.and_false, Bool.false_eq_true, if_false]
      apply ih
      · omega
      · exact hsuf'
      · exact hfind
      · rw [List.reverse_append, List.reverse_singleton, List.singleton_append]
        refine ⟨?_, fitsReversed_mono _ _ _ _ ?_ hfits⟩
        · show sm.position + spc + sm.length + _ ≤ _
          omega
        · show _ + sm.length ≤ _
          omega

/-- Function `transform` returns for a pattern whose matches are inside the searched text and
not empty, given fuel for one more test of the loop condition than the buffer has characters. -/
theorem transform_total (debug : Bool) (fuel : Nat) (source : List Nat) (reg : Pattern)
    (f : List (List Nat) → List Nat) (hwf : reg.WellFormed) (hne : reg.NonEmptyMatches)
    (hfuel : source.length < fuel) :
    ∃ out, transform debug fuel source reg f = some (.ok out) := by
  obtain ⟨jobs, hscan, hfits⟩ := scan_total debug source reg f hwf hne fuel source 0 []
    hfuel (List.suffix_refl _) (by omega) trivial
  obtain ⟨out, hout⟩ := applyReversed_ok_of_fits source.length jobs.reverse 0 source hfits
    (Nat.le_refl _)
  refine ⟨(out, !jobs.isEmpty), ?_⟩
  unfold transform applyReplacements
  rw [hscan]
  simp only [hout]

end textc

/-! ## The backtracking matcher -/

namespace std

theorem backtrack_some (cont : List Nat → Option (Nat × List (List Nat))) (s : List Nat)
    (lo : Nat) :
    ∀ (k j : Nat) (r : Nat × List (List Nat)), backtrack cont s lo k = some (j, r) →
      lo ≤ j ∧ j ≤ k ∧ cont (s.drop j) = some r := by
  intro k
  induction k with
  | zero =>
    intro j r h
    unfold backtrack at h
    by_cases hlo : lo = 0
    · rw [if_pos hlo] at h
      cases hc : cont s with
      | none => rw [hc] at h; simp at h
      | some r0 =>
        rw [hc] at h
        simp only [Option.map_some', Option.some.injEq, Prod.mk.injEq] at h
        obtain ⟨h1, h2⟩ := h
        subst h1 h2
        exact ⟨by omega, Nat.le_refl _, by simpa using hc⟩
    · rw [if_neg hlo] at h
      exact absurd h (by simp)
  | succ k ih =>
    intro j r h
    unfold backtrack at h
    by_cases hlo : k + 1 < lo
    · rw [if_pos hlo] at h
      exact absurd h (by simp)
    · rw [if_neg hlo] at h
      cases hc : cont (s.drop (k + 1)) with
      | none =>
        rw [hc] at h
        obtain ⟨h1, h2, h3⟩ := ih j r h
        exact ⟨h1, by omega, h3⟩
      | some r0 =>
        rw [hc] at h
        simp only [Option.some.injEq, Prod.mk.injEq] at h
        obtain ⟨h1, h2⟩ := h
        subst h1 h2
        exact ⟨by omega, Nat.le_refl _, hc⟩

/-- The longest count for which the rest matches is the one that is taken. -/
theorem backtrack_first (cont : List Nat → Option (Nat × List (List Nat))) (s : List Nat)
    (lo k0 : Nat) (r : Nat × List (List Nat)) (hlo : lo ≤ k0)
    (hsome : cont (s.drop k0) = some r) :
    ∀ k, k0 ≤ k → (∀ j, k0 < j → j ≤ k → cont (s.drop j) = none) →
      backtrack cont s lo k = some (k0, r) := by
  intro k
  induction k with
  | zero =>
    intro hk _
    have h0 : k0 = 0 := by omega
    subst h0
    have hl : lo = 0 := by omega
    unfold backtrack
    rw [if_pos hl]
    simp only [List.drop_zero] at hsome
    rw [hsome]
    rfl
  | succ k ih =>
    intro hk hnone
    unfold backtrack
    rw [if_neg (by omega)]
    by_cases hk0 : k0 = k + 1
    · subst hk0
      rw [hsome]
    · rw [hnone (k + 1) (by omega) (Nat.le_refl _)]
      exact ih (by omega) (fun j h1 h2 => hnone j h1 (by omega))

theorem backtrack_none (cont : List Nat → Option (Nat × List (List Nat))) (s : List Nat)
    (lo : Nat) (hnone : ∀ j, cont (s.drop j) = none) :
    ∀ k, backtrack cont s lo k = none := by
  intro k
  induction k with
  | zero =>
    unfold backtrack
    have := hnone 0
    simp only [List.drop_zero] at this
    rw [this]
    split <;> rfl
  | succ k ih =>
    unfold backtrack
    rw [hnone (k + 1), ih]
    split <;> rfl

theorem matchHere_one_cons (p : Nat → Bool) (cap : Bool) (rest : List Atom) (c : Nat)
    (t : List Nat) :
    matchHere (⟨p, .one, cap⟩ :: rest) (c :: t) =
      if p c then (matchHere rest t).map (fun r => (r.1 + 1, if cap then [c] :: r.2 else r.2))
      else none := rfl

theorem matchHere_one_nil (p : Nat → Bool) (cap : Bool) (rest : List Atom) :
    matchHere (⟨p, .one, cap⟩ :: rest) [] = none := rfl

theorem matchHere_star (p : Nat → Bool) (cap : Bool) (rest : List Atom) (s : List Nat) :
    matchHere (⟨p, .star, cap⟩ :: rest) s =
      (backtrack (matchHere rest) s 0 (s.takeWhile p).length).map
        (fun r => (r.1 + r.2.1, if cap then s.take r.1 :: r.2.2 else r.2.2)) := rfl

theorem matchHere_plus (p : Nat → Bool) (cap : Bool) (rest : List Atom) (s : List Nat) :
    matchHere (⟨p, .plus, cap⟩ :: rest) s =
      (backtrack (matchHere rest) s 1 (s.takeWhile p).length).map
        (fun r => (r.1 + r.2.1, if cap then s.take r.1 :: r.2.2 else r.2.2)) := rfl

/-- A match at the start of a string is not longer than the string. -/
theorem matchHere_le :
    ∀ (re : List Atom) (s : List Nat) (r : Nat × List (List Nat)),
      matchHere re s = some r → r.1 ≤ s.length := by
  intro re
  induction re with
  | nil =>
    intro s r h
    simp only [matchHere, Option.some.injEq] at h
    subst h
    exact Nat.zero_le _
  | cons a rest ih =>
    intro s r h
    obtain ⟨p, q, cap⟩ := a
    have hrep : ∀ lo, (backtrack (matchHere rest) s lo (s.takeWhile p).length).map
        (fun r => (r.1 + r.2.1, if cap then s.take r.1 :: r.2.2 else r.2.2)) = some r →
        r.1 ≤ s.length := by
      intro lo h
      cases hb : backtrack (matchHere rest) s lo (s.takeWhile p).length with
      | none => rw [hb] at h; simp at h
      | some kr =>
        rw [hb] at h
        obtain ⟨k, r0⟩ := kr
        obtain ⟨_, h2, h3⟩ := backtrack_some _ _ _ _ _ _ hb
        have h4 := ih _ _ h3
        have h5 : (s.takeWhile p).length ≤ s.length := (List.takeWhile_sublist _).length_le
        simp only [Option.map_some', Option.some.injEq] at h
        subst h
        simp only [List.length_drop] at h4
        show k + r0.1 ≤ _
        omega
    cases q with
    | one =>
      cases s with
      | nil => rw [matchHere_one_nil] at h; simp at h
      | cons c t =>
        rw [matchHere_one_cons] at h
        by_cases hp : p c = true
        · rw [if_pos hp] at h
          cases hr : matchHere rest t with
          | none => rw [hr] at h; simp at h
          | some r0 =>
            rw [hr] at h
            have := ih _ _ hr
            simp only [Option.map_some', Option.some.injEq] at h
            subst h
            simp only [List.length_cons]
            omega
        · rw [if_neg hp] at h
          simp at h
    | star => rw [matchHere_star] at h; exact hrep 0 h
    | plus => rw [matchHere_plus] at h; exact hrep 1 h

theorem searchFrom_of_matchHere (re : List Atom) (s : List Nat) (i : Nat)
    (r : Nat × List (List Nat)) (h : matchHere re s = some r) :
    searchFrom re s i = some ⟨i, r.1, s.take r.1 :: r.2⟩ := by
  cases s with
  | nil => simp [searchFrom, h]
  | cons c t => simp [searchFrom, h]

theorem searchFrom_none (re : List Atom) :
    ∀ (s : List Nat) (i : Nat), (∀ j, matchHere re (s.drop j) = none) →
      searchFrom re s i = none := by
  intro s
  induction s with
  | nil =>
    intro i h
    have := h 0
    simp only [List.drop_nil] at this
    simp [searchFrom, this]
  | cons c t ih =>
    intro i h
    have h0 := h 0
    simp only [List.drop_zero] at h0
    unfold searchFrom
    rw [h0]
    exact ih (i + 1) (fun j => by simpa using h (j + 1))

theorem searchFrom_bounds (re : List Atom) :
    ∀ (s : List Nat) (i : Nat) (sm : smatch), searchFrom re s i = some sm →
      i ≤ sm.position ∧ sm.position + sm.length ≤ i + s.length ∧
        ∃ t r, t <:+ s ∧ matchHere re t = some r ∧ sm.length = r.1 := by
  intro s
  induction s with
  | nil =>
    intro i sm h
    unfold searchFrom at h
    cases hm : matchHere re [] with
    | none => rw [hm] at h; simp at h
    | some r =>
      rw [hm] at h
      have := matchHere_le _ _ _ hm
      simp only [Option.some.injEq] at h
      subst h
      exact ⟨Nat.le_refl _, by simpa using this, [], r, List.suffix_refl _, hm, rfl⟩
  | cons c t ih =>
    intro i sm h
    unfold searchFrom at h
    cases hm : matchHere re (c :: t) with
    | none =>
      rw [hm] at h
      obtain ⟨h1, h2, u, r, h3, h4, h5⟩ := ih (i + 1) sm h
      refine ⟨by omega, by simp only [List.length_cons]; omega, u, r, ?_, h4, h5⟩
      exact h3.trans (List.suffix_cons _ _)
    | some r =>
      rw [hm] at h
      have := matchHere_le _ _ _ hm
      simp only [Option.some.injEq] at h
      subst h
      exact ⟨Nat.le_refl _, by simpa using this, c :: t, r, List.suffix_refl _, hm, rfl⟩

/-- Every match of `regex_search` lies inside the searched string. -/
theorem regex_search_wellFormed (re : List Atom) : (regex_search re).WellFormed := by
  intro s sm h
  have := (searchFrom_bounds re s 0 sm h).2.1
  omega

end std

/-- A match of the path expression has at least its slash. -/
theorem pathRegex_nonEmptyMatches : (std.regex_search pathRegex).NonEmptyMatches := by
  intro s sm h
  obtain ⟨_, _, t, r, _, hm, hl⟩ := std.searchFrom_bounds pathRegex s 0 sm h
  rw [hl]
  unfold pathRegex at hm
  rw [std.matchHere_star] at hm
  cases hb : std.backtrack (std.matchHere [⟨std.slashClass, .one, false⟩,
      ⟨std.wordClass, .plus, true⟩, ⟨std.dotClass, .one, false⟩,
      ⟨std.alphaClass, .plus, true⟩]) t 0 (t.takeWhile std.anyChar).length with
  | none => rw [hb] at hm; simp at hm
  | some kr =>
    rw [hb] at hm
    obtain ⟨k, r0⟩ := kr
    obtain ⟨_, _, h3⟩ := std.backtrack_some _ _ _ _ _ _ hb
    simp only [Option.map_some', Option.some.injEq] at hm
    subst hm
    show 0 < k + r0.1
    cases hd : t.drop k with
    | nil => rw [hd, std.matchHere_one_nil] at h3; simp at h3
    | cons c u =>
      rw [hd, std.matchHere_one_cons] at h3
      by_cases hp : std.slashClass c = true
      · rw [if_pos hp] at h3
        cases hr : std.matchHere [⟨std.wordClass, .plus, true⟩, ⟨std.dotClass, .one, false⟩,
            ⟨std.alphaClass, .plus, true⟩] u with
        | none => rw [hr] at h3; simp at h3
        | some r1 =>
          rw [hr] at h3
          simp only [Option.map_some', Option.some.injEq] at h3
          subst h3
          show 0 < k + (r1.1 + 1)
          omega
      · rw [if_neg hp] at h3
        simp at h3

/-! ## The two regular expressions of `headerify` -/

theorem anyChar_of_slashClass {c : Nat} (h : std.slashClass c = true) : std.anyChar c = true := by
  simp only [std.slashClass, std.anyChar, Bool.or_eq_true, Bool.and_eq_true, beq_iff_eq,
    bne_iff_ne] at *
  omega

theorem anyChar_of_word_or_dot {c : Nat} (h : (std.wordClass c || std.dotClass c) = true) :
    std.anyChar c = true := by
  simp only [std.wordClass, std.dotClass, std.anyChar, Bool.or_eq_true, Bool.and_eq_true,
    beq_iff_eq, bne_iff_ne, decide_eq_true_eq] at *
  omega

theorem not_slashClass_of_word_or_dot {c : Nat} (h : (std.wordClass c || std.dotClass c) = true) :
    std.slashClass c = false := by
  rw [← Bool.not_eq_true]
  simp only [std.wordClass, std.dotClass, std.slashClass, Bool.or_eq_true, Bool.and_eq_true,
    beq_iff_eq, decide_eq_true_eq] at *
  omega

theorem word_or_dot_of_wordClass {c : Nat} (h : std.wordClass c = true) :
    (std.wordClass c || std.dotClass c) = true := by
  rw [h]; rfl

theorem wordClass_of_alphaClass {c : Nat} (h : std.alphaClass c = true) :
    std.wordClass c = true := by
  simp only [std.wordClass, std.alphaClass, Bool.or_eq_true, Bool.and_eq_true,
    beq_iff_eq, decide_eq_true_eq] at *
  omega

theorem identifierChar_of_wordClass {c : Nat} (h : std.wordClass c = true) :
    identifierChar c = true := by
  simp only [std.wordClass, identifierChar, Bool.or_eq_true, Bool.and_eq_true,
    beq_iff_eq, decide_eq_true_eq] at *
  omega

theorem identifierChar_dotToUnderscore {c : Nat}
    (h : (std.wordClass c || std.dotClass c) = true) : identifierChar (dotToUnderscore c) = true := by
  unfold dotToUnderscore
  by_cases hc : c = 46
  · rw [if_pos hc]; rfl
  · rw [if_neg hc]
    apply identifierChar_of_wordClass
    simp only [std.dotClass, Bool.or_eq_true, beq_iff_eq] at h
    rcases h with h | h
    · exact h
    · exact absurd h hc

theorem dotToUnderscore_of_wordClass {c : Nat} (h : std.wordClass c = true) :
    dotToUnderscore c = c := by
  unfold dotToUnderscore
  rw [if_neg]
  intro hc
  subst hc
  simp [std.wordClass] at h

theorem takeWhile_append_of_all {p : Nat → Bool} :
    ∀ (a b : List Nat), (∀ c ∈ a, p c = true) → (a ++ b).takeWhile p = a ++ b.takeWhile p := by
  intro a
  induction a with
  | nil => intro b _; rfl
  | cons x a ih =>
    intro b h
    have hx : p x = true := h x (List.mem_cons_self _ _)
    simp only [List.cons_append, List.takeWhile_cons, hx, if_true, List.cons.injEq, true_and]
    exact ih b (fun c hc => h c (List.mem_cons_of_mem _ hc))

theorem takeWhile_of_all {p : Nat → Bool} (a : List Nat) (h : ∀ c ∈ a, p c = true) :
    a.takeWhile p = a := by
  have := takeWhile_append_of_all a [] h
  simpa using this

/-- A string without a slash has no match of an expression that needs one right after a
starred class. -/
theorem matchHere_slash_none (rest : List std.Atom) (t : List Nat)
    (h : ∀ c ∈ t, std.slashClass c = false) (j : Nat) :
    std.matchHere (⟨std.slashClass, .one, false⟩ :: rest) (t.drop j) = none := by
  cases hd : t.drop j with
  | nil => rfl
  | cons c u =>
    have hc : c ∈ t := List.mem_of_mem_drop (by rw [hd]; exact List.mem_cons_self _ _)
    rw [std.matchHere_one_cons, h c hc]
    rfl

theorem pathRegex_no_slash (t : List Nat) (h : ∀ c ∈ t, std.slashClass c = false) :
    std.regex_search pathRegex t = none := by
  apply std.searchFrom_none
  intro j
  unfold pathRegex
  rw [std.matchHere_star, std.backtrack_none]
  · rfl
  · intro i
    rw [List.drop_drop]
    exact matchHere_slash_none _ t h _

/-- The match of the path expression in `dir + sep + base + "." + tail`, where `tail` starts
with a letter and has no slash: it starts at offset 0, the groups are `base` and the letters at
the start of `tail`, and what follows the match is the rest of `tail`. -/
theorem pathRegex_match (dir base tail : List Nat) (sep : Nat)
    (hdir : ∀ c ∈ dir, std.anyChar c = true) (hsep : std.slashClass sep = true)
    (hbase : ∀ c ∈ base, std.wordClass c = true) (hbase0 : base ≠ [])
    (htail : ∀ c ∈ tail, (std.wordClass c || std.dotClass c) = true)
    (htail0 : 0 < (tail.takeWhile std.alphaClass).length) :
    ∃ whole n, std.regex_search pathRegex (dir ++ sep :: (base ++ 46 :: tail)) =
        some ⟨0, n, [whole, base, tail.takeWhile std.alphaClass]⟩ ∧
      0 < n ∧
      (dir ++ sep :: (base ++ 46 :: tail)).drop n = tail.dropWhile std.alphaClass := by
  have hpre : tail.takeWhile std.alphaClass = tail.take (tail.takeWhile std.alphaClass).length :=
    List.prefix_iff_eq_take.mp (List.takeWhile_prefix _)
  have hdrop : tail.dropWhile std.alphaClass = tail.drop (tail.takeWhile std.alphaClass).length := by
    have h1 := List.takeWhile_append_dropWhile std.alphaClass tail
    have h2 := List.take_append_drop (tail.takeWhile std.alphaClass).length tail
    rw [← hpre] at h2
    exact List.append_cancel_left (h1.trans h2.symm)
  generalize he : (tail.takeWhile std.alphaClass).length = e at *
  -- the last group
  have m1 : std.matchHere [⟨std.alphaClass, .plus, true⟩] tail =
      some (e + 0, [tail.take e]) := by
    rw [std.matchHere_plus, he,
      std.backtrack_first (std.matchHere []) tail 1 e (0, []) htail0 rfl e (Nat.le_refl _)
        (fun j h1 h2 => absurd h2 (Nat.not_le.mpr h1))]
    rfl
  -- the dot
  have m2 : std.matchHere [⟨std.dotClass, .one, false⟩, ⟨std.alphaClass, .plus, true⟩]
      (46 :: tail) = some (e + 0 + 1, [tail.take e]) := by
    rw [std.matchHere_one_cons, m1]
    rfl
  -- the first group
  have hw : (base ++ 46 :: tail).takeWhile std.wordClass = base := by
    rw [takeWhile_append_of_all _ _ hbase]
    simp [List.takeWhile_cons, std.wordClass]
  have m3 : std.matchHere [⟨std.wordClass, .plus, true⟩, ⟨std.dotClass, .one, false⟩,
      ⟨std.alphaClass, .plus, true⟩] (base ++ 46 :: tail) =
      some (base.length + (e + 0 + 1), [base, tail.take e]) := by
    rw [std.matchHere_plus, hw,
      std.backtrack_first _ (base ++ 46 :: tail) 1 base.length (e + 0 + 1, [tail.take e])
        (List.length_pos.mpr hbase0) (by rw [List.drop_left]; exact m2) base.length
        (Nat.le_refl _) (fun j h1 h2 => absurd h2 (Nat.not_le.mpr h1))]
    simp
  -- the slash
  have m4 : std.matchHere [⟨std.slashClass, .one, false⟩, ⟨std.wordClass, .plus, true⟩,
      ⟨std.dotClass, .one, false⟩, ⟨std.alphaClass, .plus, true⟩] (sep :: (base ++ 46 :: tail)) =
      some (base.length + (e + 0 + 1) + 1, [base, tail.take e]) := by
    rw [std.matchHere_one_cons, if_pos hsep, m3]
    rfl
  -- the starred class takes the whole string and gives back what follows `dir`
  have hnoslash : ∀ c ∈ base ++ 46 :: tail, std.slashClass c = false := by
    intro c hc
    rcases List.mem_append.mp hc with h | h
    · exact not_slashClass_of_word_or_dot (word_or_dot_of_wordClass (hbase c h))
    · rcases List.mem_cons.mp h with h | h
      · subst h; rfl
      · exact not_slashClass_of_word_or_dot (htail c h)
  have hall : ∀ c ∈ dir ++ sep :: (base ++ 46 :: tail), std.anyChar c = true := by
    intro c hc
    rcases List.mem_append.mp hc with h | h
    · exact hdir c h
    · rcases List.mem_cons.mp h with h | h
      · subst h; exact anyChar_of_slashClass hsep
      · rcases List.mem_append.mp h with h | h
        · exact anyChar_of_word_or_dot (word_or_dot_of_wordClass (hbase c h))
        · rcases List.mem_cons.mp h with h | h
          · subst h; rfl
          · exact anyChar_of_word_or_dot (htail c h)
  have m5 : std.matchHere pathRegex (dir ++ sep :: (base ++ 46 :: tail)) =
      some (dir.length + (base.length + (e + 0 + 1) + 1), [base, tail.take e]) := by
    unfold pathRegex
    rw [std.matchHere_star, takeWhile_of_all _ hall,
      std.backtrack_first _ _ 0 dir.length (base.length + (e + 0 + 1) + 1, [base, tail.take e])
        (Nat.zero_le _) (by rw [List.drop_left]; exact m4) _ (by simp)]
    · rfl
    · intro j h1 _
      have hj : (dir ++ sep :: (base ++ 46 :: tail)).drop j =
          (base ++ 46 :: tail).drop (j - dir.length - 1) := by
        rw [List.drop_append_eq_append_drop, List.drop_eq_nil_of_le (by omega), List.nil_append]
        obtain ⟨d, hd⟩ : ∃ d, j - dir.length = d + 1 := ⟨j - dir.length - 1, by omega⟩
        rw [hd, List.drop_succ_cons]
        congr 1
      rw [hj]
      exact matchHere_slash_none _ _ hnoslash _
  refine ⟨(dir ++ sep :: (base ++ 46 :: tail)).take (dir.length + (base.length + (e + 0 + 1) + 1)),
    dir.length + (base.length + (e + 0 + 1) + 1), ?_, by omega, ?_⟩
  · rw [hpre]
    exact std.searchFrom_of_matchHere _ _ 0 _ m5
  · rw [hdrop]
    rw [List.drop_append_eq_append_drop, List.drop_eq_nil_of_le (by omega), List.nil_append,
      show dir.length + (base.length + (e + 0 + 1) + 1) - dir.length
        = (base.length + (e + 1)) + 1 by omega,
      List.drop_succ_cons, List.drop_append_eq_append_drop,
      List.drop_eq_nil_of_le (by omega), List.nil_append,
      show base.length + (e + 1) - base.length = e + 1 by omega, List.drop_succ_cons]

theorem str_underscore : str "_" = [95] := rfl

theorem searchFrom_dotRegex :
    ∀ (s : List Nat) (i : Nat),
      (std.searchFrom dotRegex s i = none ∧ ∀ c ∈ s, c ≠ 46) ∨
      ∃ a b, s = a ++ 46 :: b ∧ (∀ c ∈ a, c ≠ 46) ∧
        std.searchFrom dotRegex s i = some ⟨i + a.length, 1, [[46]]⟩ := by
  intro s
  induction s with
  | nil => intro i; exact Or.inl ⟨rfl, by simp⟩
  | cons c t ih =>
    intro i
    by_cases hc : c = 46
    · subst hc
      exact Or.inr ⟨[], t, rfl, by simp, rfl⟩
    · have hm : std.matchHere dotRegex (c :: t) = none := by
        unfold dotRegex
        rw [std.matchHere_one_cons, if_neg]
        simpa [std.dotClass] using hc
      have hs : std.searchFrom dotRegex (c :: t) i = std.searchFrom dotRegex t (i + 1) := by
        rw [std.searchFrom, hm]
      rcases ih (i + 1) with ⟨h1, h2⟩ | ⟨a, b, h1, h2, h3⟩
      · refine Or.inl ⟨hs.trans h1, ?_⟩
        intro d hd
        rcases List.mem_cons.mp hd with h | h
        · rw [h]; exact hc
        · exact h2 d h
      · refine Or.inr ⟨c :: a, b, by rw [h1]; rfl, ?_, ?_⟩
        · intro d hd
          rcases List.mem_cons.mp hd with h | h
          · rw [h]; exact hc
          · exact h2 d h
        · rw [hs, h3, List.length_cons]
          congr 2
          omega

theorem map_dotToUnderscore_of_no_dot (a : List Nat) (h : ∀ c ∈ a, c ≠ 46) :
    a.map dotToUnderscore = a := by
  induction a with
  | nil => rfl
  | cons x a ih =>
    rw [List.map_cons, ih (fun c hc => h c (List.mem_cons_of_mem _ hc))]
    have : dotToUnderscore x = x := by
      unfold dotToUnderscore
      rw [if_neg (h x (List.mem_cons_self _ _))]
    rw [this]

/-- The dot pass of `headerify` turns every dot into an underscore and keeps the rest. -/
theorem regex_replace_loop_dotRegex :
    ∀ (fuel : Nat) (s : List Nat), s.length < fuel →
      std.regex_replace_loop dotRegex [95] fuel s = s.map dotToUnderscore := by
  intro fuel
  induction fuel with
  | zero => intro s h; exact absurd h (Nat.not_lt_zero _)
  | succ fuel ih =>
    intro s hs
    unfold std.regex_replace_loop std.regex_search
    rcases searchFrom_dotRegex s 0 with ⟨h1, h2⟩ | ⟨a, b, h1, h2, h3⟩
    · rw [h1, map_dotToUnderscore_of_no_dot s h2]
    · rw [h3]
      subst h1
      have hb : b.length < fuel := by
        simp only [List.length_append, List.length_cons] at hs
        omega
      simp only [Nat.zero_add, List.take_left', List.map_append, List.map_cons,
        map_dotToUnderscore_of_no_dot a h2]
      rw [show a.length + 1 = (a ++ [46]).length by simp,
        show a ++ 46 :: b = (a ++ [46]) ++ b by simp, List.drop_left, ih b hb]
      simp [dotToUnderscore]

theorem regex_replace_dotRegex (s : List Nat) :
    std.regex_replace s dotRegex [95] = s.map dotToUnderscore := by
  unfold std.regex_replace
  exact regex_replace_loop_dotRegex _ s (Nat.lt_succ_self _)

/-- The identifier for a path `dir + sep + base + "." + tail` whose `tail` starts with a letter
and consists of letters, digits, underscores and dots. -/
theorem headerifyIdentifier_of_path (debug : Bool) (fuel : Nat) (dir base tail : List Nat)
    (sep : Nat) (hdir : ∀ c ∈ dir, std.anyChar c = true) (hsep : std.slashClass sep = true)
    (hbase : ∀ c ∈ base, std.wordClass c = true) (hbase0 : base ≠ [])
    (htail : ∀ c ∈ tail, (std.wordClass c || std.dotClass c) = true)
    (htail0 : 0 < (tail.takeWhile std.alphaClass).length) :
    headerifyIdentifier debug (fuel + 2) (dir ++ sep :: (base ++ 46 :: tail)) =
      some (.ok (base ++ 95 :: tail.map dotToUnderscore)) := by
  obtain ⟨whole, n, hm, hn, hdrop⟩ :=
    pathRegex_match dir base tail sep hdir hsep hbase hbase0 htail htail0
  have hrest : std.regex_search pathRegex
      ((dir ++ sep :: (base ++ 46 :: tail)).drop (0 + n)) = none := by
    rw [Nat.zero_add, hdrop]
    apply pathRegex_no_slash
    intro c hc
    exact not_slashClass_of_word_or_dot (htail c ((List.dropWhile_sublist _).subset hc))
  have ht := textc.transform_of_one_match debug fuel (dir ++ sep :: (base ++ 46 :: tail))
    (std.regex_search pathRegex) (fun inner => inner.getD 0 [] ++ str "_" ++ inner.getD 1 [])
    ⟨0, n, [whole, base, tail.takeWhile std.alphaClass]⟩ hm (by simp) hrest
  unfold headerifyIdentifier
  rw [ht]
  simp only [Nat.zero_add, hdrop, List.take_zero, List.nil_append, List.drop_succ_cons,
    List.drop_zero, List.getD_cons_zero, List.getD_cons_succ, str_underscore,
    regex_replace_dotRegex, List.append_assoc, List.singleton_append, List.map_append,
    List.map_cons, List.takeWhile_append_dropWhile]
  rw [map_dotToUnderscore_of_no_dot base]
  · rw [List.cons_append, ← List.map_append, List.takeWhile_append_dropWhile]
    rfl
  · intro c hc h46
    have := hbase c hc
    rw [h46] at this
    simp [std.wordClass] at this

theorem wordClass_of_identifierChar {c : Nat} (h : identifierChar c = true) :
    std.wordClass c = true := by
  simp only [std.wordClass, identifierChar, Bool.or_eq_true, Bool.and_eq_true,
    beq_iff_eq, decide_eq_true_eq] at *
  omega

theorem alphaClass_of_asciiLetter {c : Nat} (h : asciiLetter c = true) :
    std.alphaClass c = true := by
  simp only [std.alphaClass, asciiLetter, Bool.or_eq_true, Bool.and_eq_true,
    decide_eq_true_eq] at *
  omega

theorem anyChar_of_not_lineTerminator {c : Nat} (h : lineTerminator c = false) :
    std.anyChar c = true := by
  rw [← Bool.not_eq_true] at h
  simp only [std.anyChar, lineTerminator, Bool.or_eq_true, Bool.and_eq_true,
    beq_iff_eq, bne_iff_ne] at *
  omega

theorem slashClass_of_eq {c : Nat} (h : c = 47 ∨ c = 92) : std.slashClass c = true := by
  rcases h with h | h <;> subst h <;> rfl

theorem takeWhile_pos_of_append {p : Nat → Bool} (a b : List Nat) (h0 : a ≠ [])
    (h : ∀ c ∈ a, p c = true) : 0 < ((a ++ b).takeWhile p).length := by
  rw [takeWhile_append_of_all a b h, List.length_append]
  have := List.length_pos.mpr h0
  omega

/-- The identifier for a path `dir + sep + base + "." + ext + rest`, in the terms of the
specification. -/
theorem headerifyIdentifier_of_parts (debug : Bool) (fuel : Nat) (dir base ext rest : List Nat)
    (sep : Nat) (hsep : sep = 47 ∨ sep = 92) (hdir : ∀ c ∈ dir, lineTerminator c = false)
    (hbase0 : base ≠ []) (hbase : ∀ c ∈ base, identifierChar c = true)
    (hext0 : ext ≠ []) (hext : ∀ c ∈ ext, asciiLetter c = true)
    (hrest : ∀ c ∈ rest, (identifierChar c || c == 46) = true) :
    headerifyIdentifier debug (fuel + 2) (dir ++ sep :: (base ++ 46 :: (ext ++ rest))) =
      some (.ok (base ++ 95 :: (ext ++ rest.map dotToUnderscore))) := by
  have hextw : ∀ c ∈ ext, std.wordClass c = true :=
    fun c hc => wordClass_of_alphaClass (alphaClass_of_asciiLetter (hext c hc))
  have htail : ∀ c ∈ ext ++ rest, (std.wordClass c || std.dotClass c) = true := by
    intro c hc
    rcases List.mem_append.mp hc with h | h
    · exact word_or_dot_of_wordClass (hextw c h)
    · have := hrest c h
      simp only [Bool.or_eq_true, std.dotClass] at this ⊢
      exact this.imp wordClass_of_identifierChar id
  have h := headerifyIdentifier_of_path debug fuel dir base (ext ++ rest) sep
    (fun c hc => anyChar_of_not_lineTerminator (hdir c hc)) (slashClass_of_eq hsep)
    (fun c hc => wordClass_of_identifierChar (hbase c hc)) hbase0 htail
    (takeWhile_pos_of_append ext rest hext0
      (fun c hc => alphaClass_of_asciiLetter (hext c hc)))
  rw [h, List.map_append, map_dotToUnderscore_of_no_dot ext]
  intro c hc h46
  have := hextw c hc
  rw [h46] at this
  simp [std.wordClass] at this

/-! ## The two orders of applying jobs -/

namespace textc

theorem applyReversed_append :
    ∀ (a b : List ReplaceJob) (buffer : List Nat),
      applyReversed (a ++ b) buffer =
        match applyReversed a buffer with
        | .ok buffer' => applyReversed b buffer'
        | .assertFailure => .assertFailure
        | .outOfRange => .outOfRange := by
  intro a
  induction a with
  | nil => intro b buffer; rfl
  | cons job rest ih =>
    intro b buffer
    simp only [List.cons_append, applyReversed]
    cases std.replace buffer job.1.1 job.1.2 job.2 with
    | ok buffer' => exact ih b buffer'
    | assertFailure => rfl
    | outOfRange => rfl

theorem applyReplacements_cons (job : ReplaceJob) (rest : List ReplaceJob) (buffer : List Nat) :
    applyReplacements (job :: rest) buffer =
      match applyReplacements rest buffer with
      | .ok buffer' => std.replace buffer' job.1.1 job.1.2 job.2
      | .assertFailure => .assertFailure
      | .outOfRange => .outOfRange := by
  unfold applyReplacements
  rw [List.reverse_cons, applyReversed_append]
  cases applyReversed rest.reverse buffer with
  | ok buffer' =>
    simp only [applyReversed]
    cases std.replace buffer' job.1.1 job.1.2 job.2 <;> rfl
  | assertFailure => rfl
  | outOfRange => rfl

theorem spansAscending_le (size : Nat) :
    ∀ (jobs : List ReplaceJob) (lo : Nat), SpansAscending size lo jobs → lo ≤ size := by
  intro jobs
  induction jobs with
  | nil => intro lo h; exact h
  | cons job rest ih =>
    intro lo h
    have := ih _ h.2
    have := h.1
    omega

theorem spansAscending_of_pairwise (size : Nat) :
    ∀ (jobs : List ReplaceJob) (lo : Nat), lo ≤ size → (∀ job ∈ jobs, lo ≤ job.1.1) →
      (∀ job ∈ jobs, job.1.1 + job.1.2 ≤ size) →
      jobs.Pairwise (fun a b => a.1.1 + a.1.2 ≤ b.1.1) → SpansAscending size lo jobs := by
  intro jobs
  induction jobs with
  | nil => intro lo h _ _ _; exact h
  | cons job rest ih =>
    intro lo _ hlo hin hord
    rw [List.pairwise_cons] at hord
    exact ⟨hlo job (List.mem_cons_self _ _),
      ih _ (hin job (List.mem_cons_self _ _)) hord.1
        (fun k hk => hin k (List.mem_cons_of_mem _ hk)) hord.2⟩

/-- The splices in descending order, with the original offsets, replace every span. -/
theorem applyReplacements_eq_spliced (buffer : List Nat) :
    ∀ (jobs : List ReplaceJob) (lo : Nat), SpansAscending buffer.length lo jobs →
      applyReplacements jobs buffer = .ok (buffer.take lo ++ spliced buffer lo jobs) := by
  intro jobs
  induction jobs with
  | nil =>
    intro lo _
    rw [applyReplacements_nil, spliced, List.take_append_drop]
  | cons job rest ih =>
    intro lo h
    obtain ⟨hlo, hrest⟩ := h
    have hend := spansAscending_le _ _ _ hrest
    rw [applyReplacements_cons, ih _ hrest]
    have hlen : (buffer.take (job.1.1 + job.1.2)).length = job.1.1 + job.1.2 := by
      rw [List.length_take]; omega
    show std.replace _ _ _ _ = _
    rw [std.replace_of_le _ _ (by rw [List.length_append, hlen]; omega)]
    congr 1
    have h1 : (buffer.take (job.1.1 + job.1.2) ++ spliced buffer (job.1.1 + job.1.2) rest).take
        job.1.1 = buffer.take job.1.1 := by
      rw [List.take_append_of_le_length (by omega), List.take_take]
      congr 1
      omega
    have h2 : (buffer.take (job.1.1 + job.1.2) ++ spliced buffer (job.1.1 + job.1.2) rest).drop
        (job.1.1 + job.1.2) = spliced buffer (job.1.1 + job.1.2) rest := by
      exact List.drop_left' hlen
    have h3 : buffer.take job.1.1 = buffer.take lo ++ (buffer.drop lo).take (job.1.1 - lo) := by
      conv_lhs => rw [show job.1.1 = lo + (job.1.1 - lo) by omega]
      exact List.take_add _ _ _
    rw [h1, h2, h3, spliced]
    simp only [List.append_assoc]

/-- The splices in ascending order, with shifted offsets, replace every span. -/
theorem applyAscending_eq_spliced (buffer : List Nat) :
    ∀ (jobs : List ReplaceJob) (lo : Nat) (done : List Nat),
      SpansAscending buffer.length lo jobs →
      applyAscending jobs ((done.length : Int) - (lo : Int)) (done ++ buffer.drop lo) =
        .ok (done ++ spliced buffer lo jobs) := by
  intro jobs
  induction jobs with
  | nil => intro lo done _; rfl
  | cons job rest ih =>
    intro lo done h
    obtain ⟨hlo, hrest⟩ := h
    have hend := spansAscending_le _ _ _ hrest
    have hq : ((job.1.1 : Int) + ((done.length : Int) - (lo : Int))).toNat =
        done.length + (job.1.1 - lo) := by omega
    unfold applyAscending
    rw [hq, std.replace_of_le _ _ (by simp only [List.length_append, List.length_drop]; omega)]
    have htake : (done ++ buffer.drop lo).take (done.length + (job.1.1 - lo)) =
        done ++ (buffer.drop lo).take (job.1.1 - lo) := List.take_append _
    have hdrop : (done ++ buffer.drop lo).drop (done.length + (job.1.1 - lo) + job.1.2) =
        buffer.drop (job.1.1 + job.1.2) := by
      rw [Nat.add_assoc, List.drop_append, List.drop_drop]
      congr 1
      omega
    have hlen : ((buffer.drop lo).take (job.1.1 - lo)).length = job.1.1 - lo := by
      rw [List.length_take, List.length_drop]; omega
    rw [htake, hdrop]
    have := ih (job.1.1 + job.1.2) (done ++ (buffer.drop lo).take (job.1.1 - lo) ++ job.2) hrest
    have hshift : ((done ++ (buffer.drop lo).take (job.1.1 - lo) ++ job.2).length : Int) -
        ((job.1.1 + job.1.2 : Nat) : Int) =
        (done.length : Int) - (lo : Int) + ((job.2.length : Int) - (job.1.2 : Int)) := by
      simp only [List.length_append, hlen]
      omega
    rw [hshift] at this
    show applyAscending rest _ _ = _
    rw [this, spliced]
    simp only [List.append_assoc]

end textc

/-! ## Decimal digits and the byte list -/

theorem toNat_digitChar (d : Nat) (h : d < 10) : (Nat.digitChar d).toNat = 48 + d := by
  interval_cases d <;> rfl

theorem toDigitsCore_append :
    ∀ (fuel n : Nat) (ds : List Char),
      Nat.toDigitsCore 10 fuel n ds = Nat.toDigitsCore 10 fuel n [] ++ ds := by
  intro fuel
  induction fuel with
  | zero => intro n ds; rfl
  | succ fuel ih =>
    intro n ds
    simp only [Nat.toDigitsCore]
    by_cases h : n / 10 = 0
    · simp [h]
    · simp only [h, if_false]
      rw [ih (n / 10) (Nat.digitChar (n % 10) :: ds), ih (n / 10) [Nat.digitChar (n % 10)]]
      simp

/-- The digits of the program model are those of the standard decimal rendering. -/
theorem natDigits_eq_toDigits :
    ∀ (fuel n : Nat), natDigits fuel n = (Nat.toDigitsCore 10 fuel n []).map Char.toNat := by
  intro fuel
  induction fuel with
  | zero => intro n; rfl
  | succ fuel ih =>
    intro n
    simp only [natDigits, Nat.toDigitsCore]
    by_cases h : n < 10
    · have h0 : n / 10 = 0 := by omega
      have h1 : n % 10 = n := by omega
      simp [h, h0, h1, toNat_digitChar n h]
    · have h0 : ¬ n / 10 = 0 := by omega
      simp only [h, h0, if_false]
      rw [toDigitsCore_append, ih, List.map_append, List.map_singleton,
        toNat_digitChar _ (Nat.mod_lt _ (by decide))]

theorem str_toString_nat (n : Nat) : str (toString n) = natDigits (n + 1) n := by
  rw [natDigits_eq_toDigits]
  rfl

theorem to_string_eq_decimal (i : Int) : std.to_string i = decimal i := by
  unfold std.to_string decimal
  cases i with
  | ofNat m =>
    rw [if_neg (by simp)]
    exact (str_toString_nat m).symm
  | negSucc m =>
    rw [if_pos (Int.negSucc_lt_zero m)]
    have h : (-Int.negSucc m).toNat = m + 1 := by
      rw [Int.neg_negSucc]
      rfl
    rw [h]
    show _ = str ("-" ++ toString (m + 1))
    rw [← str_toString_nat]
    simp [str]

theorem toInt8_eq_signedValue (b : Nat) (h : b < 256) : toInt8 b = signedValue b := by
  unfold toInt8 signedValue
  rw [Nat.mod_eq_of_lt h]

theorem intercalate_cons_cons (sep x y : List Nat) (rest : List (List Nat)) :
    sep.intercalate (x :: y :: rest) = x ++ sep ++ sep.intercalate (y :: rest) := by
  simp [List.intercalate, List.intersperse]

/-- The loop of `std_bytenise` from index `i` on, where `l` is the data from `i` on. -/
theorem std_bytenise_loop (binary_data : List Nat) :
    ∀ (l : List Nat) (i : Nat) (res : List Nat), binary_data.drop i = l →
      (List.range' i l.length).foldl
        (fun res i =>
          let res := res ++ std.to_string (toInt8 (binary_data.getD i 0))
          if i ≠ binary_data.length - 1 then res ++ [44] else res) res =
        res ++ [44].intercalate (l.map (fun b => std.to_string (toInt8 b))) := by
  intro l
  induction l with
  | nil => intro i res _; simp [List.intercalate]
  | cons b l ih =>
    intro i res h
    have hlen : binary_data.length = i + (l.length + 1) := by
      have := congrArg List.length h
      simp only [List.length_drop, List.length_cons] at this
      omega
    have hget : binary_data.getD i 0 = b := by
      have h1 : (binary_data.drop i)[0]? = some b := by rw [h]; simp
      rw [List.getElem?_drop] at h1
      rw [List.getD_eq_getElem?_getD]
      simp only [Nat.add_zero] at h1
      rw [h1]
      rfl
    have hdrop : binary_data.drop (i + 1) = l := by
      have h1 : binary_data.drop (i + 1) = (binary_data.drop i).drop 1 := by
        rw [List.drop_drop]
      rw [h1, h]
      rfl
    simp only [List.length_cons, List.range'_succ, List.foldl_cons, hget]
    rw [ih (i + 1) _ hdrop]
    cases l with
    | nil =>
      have : i = binary_data.length - 1 := by simp only [List.length_nil] at hlen; omega
      simp [List.intercalate, this]
    | cons b' l' =>
      have : i ≠ binary_data.length - 1 := by simp only [List.length_cons] at hlen; omega
      rw [if_pos this]
      simp only [List.map_cons]
      rw [intercalate_cons_cons]
      simp only [List.append_assoc]

theorem std_bytenise_eq_intercalate (binary_data : List Nat) :
    std_bytenise binary_data =
      [44].intercalate (binary_data.map (fun b => std.to_string (toInt8 b))) := by
  unfold std_bytenise
  rw [List.range_eq_range']
  have := std_bytenise_loop binary_data binary_data 0 [] rfl
  simpa using this

theorem natDigits_chars :
    ∀ (fuel n : Nat), ∀ c ∈ natDigits fuel n, 48 ≤ c ∧ c ≤ 57 := by
  intro fuel
  induction fuel with
  | zero => intro n c hc; simp [natDigits] at hc
  | succ fuel ih =>
    intro n c hc
    unfold natDigits at hc
    by_cases h : n < 10
    · rw [if_pos h] at hc
      simp only [List.mem_singleton] at hc
      omega
    · rw [if_neg h] at hc
      rcases List.mem_append.mp hc with h1 | h1
      · exact ih _ c h1
      · simp only [List.mem_singleton] at h1
        omega

theorem natDigits_ne_nil (fuel n : Nat) : natDigits (fuel + 1) n ≠ [] := by
  unfold natDigits
  split <;> simp

/-- A decimal rendering is not empty and consists of digits and at most a minus sign. -/
theorem to_string_chars (i : Int) :
    std.to_string i ≠ [] ∧ ∀ c ∈ std.to_string i, c = 45 ∨ (48 ≤ c ∧ c ≤ 57) := by
  unfold std.to_string
  by_cases h : i < 0
  · rw [if_pos h]
    refine ⟨by simp, ?_⟩
    intro c hc
    rcases List.mem_cons.mp hc with h1 | h1
    · exact Or.inl h1
    · exact Or.inr (natDigits_chars _ _ c h1)
  · rw [if_neg h]
    exact ⟨natDigits_ne_nil _ _, fun c hc => Or.inr (natDigits_chars _ _ c hc)⟩

theorem literal_a_nonEmptyMatches : (std.regex_search (std.literal [97])).NonEmptyMatches := by
  intro s sm h
  obtain ⟨_, _, t, r, _, hm, hl⟩ := std.searchFrom_bounds _ s 0 sm h
  rw [hl]
  cases t with
  | nil => simp [std.literal, std.matchHere] at hm
  | cons c u =>
    simp only [std.literal, List.map_cons, List.map_nil, std.matchHere_one_cons] at hm
    by_cases hc : (c == 97) = true
    · rw [if_pos hc] at hm
      simp only [std.matchHere, Option.map_some', Option.some.injEq] at hm
      subst hm
      exact Nat.succ_pos _
    · rw [if_neg hc] at hm
      simp at hm

/-! ## The claims -/

/-- C1 (the code departs from the claim). The claim: for every pattern whose matches are not
empty, `textc::transform` gives the same buffer and flag as the scan that tracks the base offset
arithmetically, that is, every left-to-right match is replaced. The code at the buffer `"aa"`,
the pattern `a` and the replacement `"b"`: the suffix `"a"` that is left after the first match
starts at offset 1, `source.find` finds it at offset 0, both jobs get the span `(0, 1)` and the
buffer ends as `"ba"`, while the arithmetic scan and the direct rewrite give `"bb"`. -/
theorem transform_aa_not_arithmetic (debug : Bool) :
    (std.regex_search (std.literal (str "a"))).WellFormed ∧
    (std.regex_search (std.literal (str "a"))).NonEmptyMatches ∧
    textc.transform debug 3 (str "aa") (std.regex_search (std.literal (str "a")))
      (fun _ => str "b") = some (.ok (str "ba", true)) ∧
    textc.transformArith 3 (str "aa") (std.regex_search (std.literal (str "a")))
      (fun _ => str "b") = some (.ok (str "bb", true)) ∧
    textc.rewriteAll (std.regex_search (std.literal (str "a"))) (fun _ => str "b") 3 (str "aa")
      = some (str "bb", true) := by
  refine ⟨std.regex_search_wellFormed _, literal_a_nonEmptyMatches, ?_, by decide, by decide⟩
  cases debug <;> decide

/-- C2. When the pattern has no match in the buffer, `textc::transform` leaves the buffer as it
is and returns `false`. The buffer may be the output of an earlier run of `transform`: a re-run
on a rewritten buffer that the pattern no longer matches changes nothing. -/
theorem transform_no_match_unchanged (debug : Bool) (fuel : Nat) (source : List Nat)
    (reg : Pattern) (transform_function : List (List Nat) → List Nat)
    (hno : reg source = none) :
    textc.transform debug (fuel + 1) source reg transform_function = some (.ok (source, false)) :=
  textc.transform_of_no_match debug fuel source reg transform_function hno

/-- Witness for C2: the buffer `"aXb"` is rewritten to `"a-b"`, which the pattern `X` no longer
matches, and the second run leaves `"a-b"` alone. -/
theorem transform_no_match_unchanged_witness :
    textc.transform true 2 (str "aXb") (std.regex_search (std.literal (str "X")))
      (fun _ => str "-") = some (.ok (str "a-b", true)) ∧
    std.regex_search (std.literal (str "X")) (str "a-b") = none ∧
    textc.transform true 1 (str "a-b") (std.regex_search (std.literal (str "X")))
      (fun _ => str "-") = some (.ok (str "a-b", false)) :=
  ⟨by decide, by decide,
    transform_no_match_unchanged true 0 (str "a-b") (std.regex_search (std.literal (str "X")))
      (fun _ => str "-") (by decide)⟩

/-- C3 as stated fails. The pattern `\b$` finds exactly one match in the buffer `"a"`, the
empty match at offset 1, the end of the buffer, and no match in the empty text after it. The
offset is not below the size of the buffer, so the `textc_assert` of the scan loop fails: a
debug build does not return from `transform`, with any amount of fuel. (A release build returns
`"ab"` and `true`.) -/
theorem single_empty_match_at_end_aborts :
    wordBoundaryAtEnd (str "a") = some ⟨1, 0, [[]]⟩ ∧
    wordBoundaryAtEnd ((str "a").drop (1 + 0)) = none ∧
    textc.transform true 2 (str "a") wordBoundaryAtEnd (fun _ => str "b") =
      some .assertFailure ∧
    textc.transform false 2 (str "a") wordBoundaryAtEnd (fun _ => str "b") =
      some (.ok (str "ab", true)) ∧
    ¬ ∃ (fuel : Nat) (out : List Nat × Bool),
      textc.transform true fuel (str "a") wordBoundaryAtEnd (fun _ => str "b") =
        some (.ok out) := by
  refine ⟨by decide, by decide, by decide, by decide, ?_⟩
  rintro ⟨fuel, out, h⟩
  have hm : wordBoundaryAtEnd (str "a") = some ⟨1, 0, [[]]⟩ := by decide
  have hl : (str "a").length = 1 := by decide
  cases fuel with
  | zero => simp [textc.transform, textc.scan] at h
  | succ fuel => simp [textc.transform, textc.scan, hm, hl] at h

/-- C3, amended. When the scan finds exactly one match, at offset `p` of the buffer with length
`l` and inside the buffer (`p + l <= |buffer|`), and no match in the text after it, and when
`p < |buffer|` or the build has no `textc_assert` check, `textc::transform` leaves the buffer
equal to the first `p` characters of the original, then the value of the replacement function
on the groups of the match, then the original from `p + l` on; and it returns `true`. -/
theorem transform_single_match (debug : Bool) (fuel : Nat) (source : List Nat) (reg : Pattern)
    (transform_function : List (List Nat) → List Nat) (sm : std.smatch)
    (hmatch : reg source = some sm) (hinside : sm.position + sm.length ≤ source.length)
    (hassert : debug = true → sm.position < source.length)
    (hafter : reg (source.drop (sm.position + sm.length)) = none) :
    textc.transform debug (fuel + 2) source reg transform_function =
      some (.ok (source.take sm.position ++ transform_function (sm.subs.drop 1) ++
        source.drop (sm.position + sm.length), true)) :=
  textc.transform_of_one_match_inside debug fuel source reg transform_function sm hmatch hinside
    hassert hafter

/-- Witness for C3, amended: in a debug build the one `XY` in `"abXYcd"` becomes the replacement
`"--"`, and in a release build the empty match of `\b$` at the end of `"a"` gets the
replacement `"b"`. -/
theorem transform_single_match_witness :
    std.regex_search (std.literal (str "XY")) (str "abXYcd") = some ⟨2, 2, [str "XY"]⟩ ∧
    textc.transform true 2 (str "abXYcd") (std.regex_search (std.literal (str "XY")))
      (fun _ => str "--") = some (.ok (str "ab" ++ str "--" ++ str "cd", true)) ∧
    textc.transform false 2 (str "a") wordBoundaryAtEnd (fun _ => str "b") =
      some (.ok (str "a" ++ str "b" ++ [], true)) :=
  ⟨by decide,
    transform_single_match true 0 (str "abXYcd") (std.regex_search (std.literal (str "XY")))
      (fun _ => str "--") ⟨2, 2, [str "XY"]⟩ (by decide) (by decide) (by decide) (by decide),
    transform_single_match false 0 (str "a") wordBoundaryAtEnd (fun _ => str "b")
      ⟨1, 0, [[]]⟩ (by decide) (by decide) (by decide) (by decide)⟩

/-- C4. For jobs whose spans lie inside the buffer and are listed in ascending order without
overlap (every span ends where or before every later one starts), the splices of
`textc::transform`, made in descending order with the original offsets, give the same buffer as
the splices made in ascending order with every offset shifted by the accumulated difference
between replacement length and span length. -/
theorem descending_splices_eq_ascending (buffer : List Nat) (jobs : List textc.ReplaceJob)
    (hinside : ∀ job ∈ jobs, job.1.1 + job.1.2 ≤ buffer.length)
    (hordered : jobs.Pairwise (fun a b => a.1.1 + a.1.2 ≤ b.1.1)) :
    ∃ out, textc.applyReplacements jobs buffer = .ok out ∧
      textc.applyAscending jobs 0 buffer = .ok out := by
  have hs := textc.spansAscending_of_pairwise buffer.length jobs 0 (Nat.zero_le _)
    (fun _ _ => Nat.zero_le _) hinside hordered
  refine ⟨textc.spliced buffer 0 jobs, ?_, ?_⟩
  · simpa using textc.applyReplacements_eq_spliced buffer jobs 0 hs
  · simpa using textc.applyAscending_eq_spliced buffer jobs 0 [] hs

/-- Witness for C4: three jobs on `"abcdefgh"`, one shrinking, one growing, one deleting. -/
theorem descending_splices_eq_ascending_witness :
    ∃ out, textc.applyReplacements
        [((1, 2), str "X"), ((4, 1), str "YYY"), ((6, 2), str "")] (str "abcdefgh") = .ok out ∧
      textc.applyAscending
        [((1, 2), str "X"), ((4, 1), str "YYY"), ((6, 2), str "")] 0 (str "abcdefgh") = .ok out :=
  descending_splices_eq_ascending (str "abcdefgh")
    [((1, 2), str "X"), ((4, 1), str "YYY"), ((6, 2), str "")] (by decide) (by decide)

/-- C5 (the code departs from the claim). The claim: the jobs that the scan loop collects for a
pattern whose matches are not empty have spans that do not overlap and increase,
`pos_i + len_i <= pos_{i+1}`. The code at the buffer `"aa"` and the pattern `a`: the loop exits
with the two jobs `(0, 1)` and `(0, 1)`, the same span twice. -/
theorem scan_aa_jobs_overlap (debug : Bool) :
    textc.scan debug (str "aa") (std.regex_search (std.literal (str "a"))) (fun _ => str "b")
      3 (str "aa") 0 [] = some (.ok [((0, 1), str "b"), ((0, 1), str "b")]) ∧
    textc.spansIncrease [((0, 1), str "b"), ((0, 1), str "b")] = false := by
  refine ⟨?_, by decide⟩
  cases debug <;> decide

/-- C6. For a path `dir + sep + base + "." + ext`, where `sep` is `/` or `\`, `dir` has no line
terminator, `base` is a non-empty string of letters, digits and underscores and `ext` is a
non-empty string of ASCII letters, the identifier that `headerify` derives is
`base + "_" + ext`. -/
theorem headerify_identifier_of_path (debug : Bool) (fuel : Nat) (dir base ext : List Nat)
    (sep : Nat) (hsep : sep = 47 ∨ sep = 92) (hdir : ∀ c ∈ dir, lineTerminator c = false)
    (hbase0 : base ≠ []) (hbase : ∀ c ∈ base, identifierChar c = true)
    (hext0 : ext ≠ []) (hext : ∀ c ∈ ext, asciiLetter c = true) :
    headerifyIdentifier debug (fuel + 2) (dir ++ [sep] ++ base ++ str "." ++ ext) =
      some (.ok (base ++ str "_" ++ ext)) := by
  have h := headerifyIdentifier_of_parts debug fuel dir base ext [] sep hsep hdir hbase0 hbase
    hext0 hext (by simp)
  simp only [List.map_nil, List.append_nil] at h
  have hp : dir ++ [sep] ++ base ++ str "." ++ ext = dir ++ sep :: (base ++ 46 :: ext) := by
    rw [show str "." = [46] from rfl]
    simp
  have hi : base ++ str "_" ++ ext = base ++ 95 :: ext := by
    rw [str_underscore]
    simp
  rw [hp, hi, h]

/-- Witness for C6: the path `root/path_parent/filename.txt` gives `filename_txt`. -/
theorem headerify_identifier_of_path_witness :
    headerifyIdentifier true 2 (str "root/path_parent/filename.txt") =
      some (.ok (str "filename_txt")) :=
  headerify_identifier_of_path true 0 (str "root/path_parent") (str "filename") (str "txt") 47
    (Or.inl rfl) (by decide) (by decide) (by decide) (by decide) (by decide)

/-- C7 as stated fails: the identifier that `headerify` derives for `root/file.tar.gz` is not
`file_gz`, in either build and with any amount of fuel. -/
theorem tar_gz_identifier_is_not_file_gz :
    ¬ ∃ (debug : Bool) (fuel : Nat),
      headerifyIdentifier debug fuel (str "root/file.tar.gz") = some (.ok (str "file_gz")) := by
  rintro ⟨debug, fuel, h⟩
  match fuel with
  | 0 => cases debug <;> exact absurd h (by decide)
  | 1 => cases debug <;> exact absurd h (by decide)
  | fuel + 2 =>
    have h2 := headerifyIdentifier_of_parts debug fuel (str "root") (str "file") (str "tar")
      (str ".gz") 47 (Or.inl rfl) (by decide) (by decide) (by decide) (by decide) (by decide)
      (by decide)
    have h3 : str "root" ++ 47 :: (str "file" ++ 46 :: (str "tar" ++ str ".gz")) =
        str "root/file.tar.gz" := by decide
    rw [h3, h] at h2
    exact absurd h2 (by decide)

/-- C7, amended. For the path `root/file.tar.gz` the leading `.*` of the path expression
consumes up to the last slash, the base group is `file` and the extension group is `tar`, the
first run of letters after the base: the match is `root/file.tar`, it is replaced by `file_tar`,
the rest `.gz` stays, and the dot pass gives the identifier `file_tar_gz`. -/
theorem headerify_tar_gz (debug : Bool) (fuel : Nat) :
    std.regex_search pathRegex (str "root/file.tar.gz") =
      some ⟨0, 13, [str "root/file.tar", str "file", str "tar"]⟩ ∧
    headerifyIdentifier debug (fuel + 2) (str "root/file.tar.gz") =
      some (.ok (str "file_tar_gz")) := by
  refine ⟨by decide, ?_⟩
  exact headerifyIdentifier_of_parts debug fuel (str "root") (str "file") (str "tar")
    (str ".gz") 47 (Or.inl rfl) (by decide) (by decide) (by decide) (by decide) (by decide)
    (by decide)

/-- C8 as stated fails: the path `a-b` has no match of the path expression and no dot, so the
identifier is `a-b`, and `-` is neither alphanumeric nor an underscore. -/
theorem identifier_with_hyphen_survives :
    ¬ ∀ (debug : Bool) (fuel : Nat) (path identifier : List Nat),
      headerifyIdentifier debug fuel path = some (.ok identifier) →
        ∀ c ∈ identifier, identifierChar c = true := by
  intro h
  have h1 := h true 1 (str "a-b") (str "a-b") (by decide) 45 (by decide)
  exact absurd h1 (by decide)

/-- C8, amended. For every input path that consists only of letters, digits, underscores and
dots, and for every input path of the form `dir + sep + base + "." + ext + rest`, where `sep` is
`/` or `\`, `dir` has no line terminator, `base` is a non-empty string of letters, digits and
underscores, `ext` is a non-empty string of ASCII letters and `rest` consists of letters,
digits, underscores and dots, the identifier that `headerify` derives consists only of
alphanumeric and underscore characters. -/
theorem headerify_identifier_valid (debug : Bool) (fuel : Nat) (path : List Nat)
    (hform :
      (∀ c ∈ path, (identifierChar c || c == 46) = true) ∨
      ∃ (dir base ext rest : List Nat) (sep : Nat),
        path = dir ++ [sep] ++ base ++ str "." ++ ext ++ rest ∧
        (sep = 47 ∨ sep = 92) ∧ (∀ c ∈ dir, lineTerminator c = false) ∧
        base ≠ [] ∧ (∀ c ∈ base, identifierChar c = true) ∧
        ext ≠ [] ∧ (∀ c ∈ ext, asciiLetter c = true) ∧
        (∀ c ∈ rest, (identifierChar c || c == 46) = true)) :
    ∃ identifier,
      headerifyIdentifier debug (fuel + 2) path = some (.ok identifier) ∧
      ∀ c ∈ identifier, identifierChar c = true := by
  have hcls : ∀ c : Nat, (identifierChar c || c == 46) = true →
      (std.wordClass c || std.dotClass c) = true := by
    intro c hc
    simp only [Bool.or_eq_true, std.dotClass] at hc ⊢
    exact hc.imp wordClass_of_identifierChar id
  rcases hform with hbare | ⟨dir, base, ext, rest, sep, hpath, hsep, hdir, hbase0, hbase, hext0,
    hext, hrest⟩
  · have hno : std.regex_search pathRegex path = none :=
      pathRegex_no_slash path (fun c hc => not_slashClass_of_word_or_dot (hcls c (hbare c hc)))
    have ht := textc.transform_of_no_match debug (fuel + 1) path (std.regex_search pathRegex)
      (fun inner => inner.getD 0 [] ++ str "_" ++ inner.getD 1 []) hno
    refine ⟨path.map dotToUnderscore, ?_, ?_⟩
    · unfold headerifyIdentifier
      rw [ht]
      simp only [str_underscore, regex_replace_dotRegex]
    · intro c hc
      obtain ⟨d, hd, rfl⟩ := List.mem_map.mp hc
      exact identifierChar_dotToUnderscore (hcls d (hbare d hd))
  · have h := headerifyIdentifier_of_parts debug fuel dir base ext rest sep hsep hdir hbase0
      hbase hext0 hext hrest
    have hp : dir ++ [sep] ++ base ++ str "." ++ ext ++ rest =
        dir ++ sep :: (base ++ 46 :: (ext ++ rest)) := by
      rw [show str "." = [46] from rfl]
      simp
    refine ⟨_, by rw [hpath, hp]; exact h, ?_⟩
    intro c hc
    rcases List.mem_append.mp hc with h1 | h1
    · exact hbase c h1
    · rcases List.mem_cons.mp h1 with h2 | h2
      · rw [h2]; rfl
      · rcases List.mem_append.mp h2 with h3 | h3
        · exact identifierChar_of_wordClass
            (wordClass_of_alphaClass (alphaClass_of_asciiLetter (hext c h3)))
        · obtain ⟨d, hd, rfl⟩ := List.mem_map.mp h3
          exact identifierChar_dotToUnderscore (hcls d (hrest d hd))

/-- Witness for C8, amended: the bare file name `file.txt` and the path
`a/b/archive.tar.gz`. -/
theorem headerify_identifier_valid_witness :
    (∃ identifier,
      headerifyIdentifier true 2 (str "file.txt") = some (.ok identifier) ∧
      ∀ c ∈ identifier, identifierChar c = true) ∧
    ∃ identifier,
      headerifyIdentifier true 2 (str "a/b/archive.tar.gz") = some (.ok identifier) ∧
      ∀ c ∈ identifier, identifierChar c = true :=
  ⟨headerify_identifier_valid true 0 (str "file.txt") (Or.inl (by decide)),
    headerify_identifier_valid true 0 (str "a/b/archive.tar.gz")
      (Or.inr ⟨str "a/b", str "archive", str "tar", str ".gz", 47, by decide, Or.inl rfl,
        by decide, by decide, by decide, by decide, by decide, by decide⟩)⟩

/-- C9. For every byte sequence `std_bytenise` returns the decimal renderings of the bytes read
as signed 8-bit integers (a byte `b < 128` as `b`, a byte `b >= 128` as `b - 256`, so every
number lies in `[-128, 127]`), in input order, joined by single commas: the renderings are not
empty and have no comma in them, so the result neither starts nor ends with a comma. -/
theorem std_bytenise_signed_decimal (binary_data : List Nat)
    (hbytes : ∀ b ∈ binary_data, b < 256) :
    std_bytenise binary_data =
      (str ",").intercalate (binary_data.map (fun b => decimal (signedValue b))) ∧
    ∀ b ∈ binary_data, -128 ≤ signedValue b ∧ signedValue b ≤ 127 ∧
      decimal (signedValue b) ≠ [] ∧ 44 ∉ decimal (signedValue b) := by
  constructor
  · rw [std_bytenise_eq_intercalate]
    congr 1
    apply List.map_congr_left
    intro b hb
    rw [toInt8_eq_signedValue b (hbytes b hb), to_string_eq_decimal]
  · intro b hb
    have := hbytes b hb
    have hc := to_string_chars (signedValue b)
    rw [to_string_eq_decimal] at hc
    refine ⟨?_, ?_, hc.1, ?_⟩
    · unfold signedValue; split <;> omega
    · unfold signedValue; split <;> omega
    · intro h44
      have := hc.2 44 h44
      omega

/-- Witness for C9: the bytes `0x00, 0x41, 0xFF` give `0,65,-1`. -/
theorem std_bytenise_signed_decimal_witness :
    std_bytenise [0x00, 0x41, 0xFF] = str "0,65,-1" ∧
    std_bytenise [0x00, 0x41, 0xFF] =
      (str ",").intercalate ([0x00, 0x41, 0xFF].map (fun b => decimal (signedValue b))) :=
  ⟨by decide, (std_bytenise_signed_decimal [0x00, 0x41, 0xFF] (by decide)).1⟩

/-- C10. For every file name and every text of `n` bytes, `headerify` replaces the text by the
two include lines, the marker comment and `constexpr std::array<std::int8_t, n> identifier{...};`
where `n` is the byte count of the original text in decimal, `identifier` is the name derived
from the file name and the braces hold `std_bytenise` of the original text. -/
theorem headerify_text (debug : Bool) (fuel : Nat) (filename text : List Nat)
    (hfuel : filename.length < fuel) :
    ∃ identifier,
      headerifyIdentifier debug fuel filename = some (.ok identifier) ∧
      headerify debug fuel filename text =
        some (.ok (str "#include <cstdint>\n#include <array>\n/*textc_gen_header*/constexpr std::array<std::int8_t, "
          ++ decimal text.length ++ str "> " ++ identifier ++ str "\x7b"
          ++ std_bytenise text ++ str "\x7d;")) := by
  obtain ⟨out, hout⟩ := textc.transform_total debug fuel filename (std.regex_search pathRegex)
    (fun inner => inner.getD 0 [] ++ str "_" ++ inner.getD 1 [])
    (std.regex_search_wellFormed _) pathRegex_nonEmptyMatches hfuel
  have hid : headerifyIdentifier debug fuel filename =
      some (.ok (std.regex_replace out.1 dotRegex (str "_"))) := by
    unfold headerifyIdentifier
    rw [hout]
  refine ⟨_, hid, ?_⟩
  unfold headerify
  rw [hid]
  dsimp only
  rw [to_string_eq_decimal]

/-- Witness for C10: the file name `root/path_parent/filename.txt` and the bytes
`0x00, 0x41, 0xFF`. -/
theorem headerify_text_witness :
    (str "root/path_parent/filename.txt").length < 30 ∧
    ∃ identifier,
      headerifyIdentifier true 30 (str "root/path_parent/filename.txt") =
        some (.ok identifier) ∧
      headerify true 30 (str "root/path_parent/filename.txt") [0x00, 0x41, 0xFF] =
        some (.ok (str "#include <cstdint>\n#include <array>\n/*textc_gen_header*/constexpr std::array<std::int8_t, "
          ++ decimal [0x00, 0x41, 0xFF].length ++ str "> " ++ identifier ++ str "\x7b"
          ++ std_bytenise [0x00, 0x41, 0xFF] ++ str "\x7d;")) :=
  ⟨by decide,
    headerify_text true 30 (str "root/path_parent/filename.txt") [0x00, 0x41, 0xFF]
      (by decide)⟩

/-! ## Bounds on the jobs of the scan -/

namespace textc

/-- The scan loop exits, and every job it adds has a non-empty span inside the buffer; there is
at most one new job for every character of the working copy. -/
theorem scan_result_bounds (debug : Bool) (source : List Nat) (reg : Pattern)
    (f : List (List Nat) → List Nat) (hwf : reg.WellFormed) (hne : reg.NonEmptyMatches) :
    ∀ (fuel : Nat) (src_copy : List Nat) (src_pos_counter : Nat) (jobs : List ReplaceJob),
      src_copy.length < fuel → src_copy <:+ source →
      src_pos_counter + src_copy.length ≤ source.length →
      ∃ jobs', scan debug source reg f fuel src_copy src_pos_counter jobs = some (.ok jobs') ∧
        jobs'.length ≤ jobs.length + src_copy.length ∧
        ∀ job ∈ jobs', job ∈ jobs ∨
          (job.1.1 < source.length ∧ job.1.1 + job.1.2 ≤ source.length ∧ 0 < job.1.2) := by
  intro fuel
  induction fuel with
  | zero => intro src_copy _ _ h; exact absurd h (Nat.not_lt_zero _)
  | succ fuel ih =>
    intro src_copy spc jobs hfuel hsuf hspc
    unfold scan
    cases hm : reg src_copy with
    | none => exact ⟨jobs, rfl, Nat.le_add_right _ _, fun job hj => Or.inl hj⟩
    | some sm =>
      have h1 := hwf _ _ hm
      have h2 := hne _ _ hm
      have hpos : sm.position + spc < source.length := by omega
      have hsuf' : src_copy.drop (sm.position + sm.length) <:+ source :=
        (List.drop_suffix _ _).trans hsuf
      have hfind := std.find_add_length_le hsuf'
      have hlen : (src_copy.drop (sm.position + sm.length)).length
          = src_copy.length - (sm.position + sm.length) := List.length_drop _ _
      simp only [hpos, decide_True, Bool.not_true, Bool.and_false, Bool.false_eq_true, if_false]
      obtain ⟨jobs', hscan, hcount, hjobs⟩ := ih (src_copy.drop (sm.position + sm.length))
        (std.find source (src_copy.drop (sm.position + sm.length)))
        (jobs ++ [((sm.position + spc, sm.length), f (sm.subs.drop 1))])
        (by omega) hsuf' hfind
      refine ⟨jobs', hscan, ?_, ?_⟩
      · simp only [List.length_append, List.length_singleton] at hcount
        omega
      · intro job hj
        rcases hjobs job hj with h | h
        · rcases List.mem_append.mp h with h | h
          · exact Or.inl h
          · rw [List.mem_singleton] at h
            subst h
            exact Or.inr ⟨hpos, by show sm.position + spc + sm.length ≤ _; omega, h2⟩
        · exact Or.inr h

/-- A run of the scan loop that a debug build completes is the run of the release build. -/
theorem scan_release_of_debug (source : List Nat) (reg : Pattern)
    (f : List (List Nat) → List Nat) :
    ∀ (fuel : Nat) (src_copy : List Nat) (src_pos_counter : Nat) (jobs jobs' : List ReplaceJob),
      scan true source reg f fuel src_copy src_pos_counter jobs = some (.ok jobs') →
      scan false source reg f fuel src_copy src_pos_counter jobs = some (.ok jobs') := by
  intro fuel
  induction fuel with
  | zero => intro _ _ _ _ h; simp [scan] at h
  | succ fuel ih =>
    intro src_copy spc jobs jobs' h
    unfold scan at h ⊢
    cases hm : reg src_copy with
    | none => rw [hm] at h; exact h
    | some sm =>
      rw [hm] at h
      by_cases hpos : sm.position + spc < source.length
      · simp only [hpos, decide_True, Bool.not_true, Bool.and_false, Bool.false_eq_true,
          if_false] at h ⊢
        exact ih _ _ _ _ h
      · simp [hpos] at h

end textc

/-! ## The scan with `source.find` and the arithmetic scan -/

namespace textc

/-- Where every working copy with a further match is found by `source.find` at its real offset,
the scan loop collects the jobs of the arithmetic scan. -/
theorem scan_eq_scanArith (debug : Bool) (source : List Nat) (reg : Pattern)
    (f : List (List Nat) → List Nat) (hwf : reg.WellFormed) (hne : reg.NonEmptyMatches) :
    ∀ (fuel : Nat) (src_copy : List Nat) (src_pos_counter base : Nat) (jobs : List ReplaceJob),
      base + src_copy.length = source.length →
      (reg src_copy ≠ none → src_pos_counter = base) →
      (∀ copy ∈ workingCopies reg fuel src_copy, reg copy ≠ none →
        std.find source copy + copy.length = source.length) →
      scan debug source reg f fuel src_copy src_pos_counter jobs =
        (scanArith reg f fuel src_copy base jobs).map .ok := by
  intro fuel
  induction fuel with
  | zero => intro _ _ _ _ _ _ _; rfl
  | succ fuel ih =>
    intro src_copy spc base jobs hbase hspc huniq
    unfold scan scanArith
    cases hm : reg src_copy with
    | none => rfl
    | some sm =>
      have h1 := hwf _ _ hm
      have h2 := hne _ _ hm
      have hs : spc = base := hspc (by rw [hm]; simp)
      subst hs
      have hpos : sm.position + spc < source.length := by omega
      have hlen : (src_copy.drop (sm.position + sm.length)).length
          = src_copy.length - (sm.position + sm.length) := List.length_drop _ _
      have hw : workingCopies reg (fuel + 1) src_copy =
          src_copy.drop (sm.position + sm.length) ::
            workingCopies reg fuel (src_copy.drop (sm.position + sm.length)) := by
        rw [workingCopies, hm]
      rw [hw] at huniq
      simp only [hpos, decide_True, Bool.not_true, Bool.and_false, Bool.false_eq_true, if_false]
      apply ih
      · omega
      · intro hnext
        have := huniq _ (List.mem_cons_self _ _) hnext
        omega
      · intro copy hc
        exact huniq copy (List.mem_cons_of_mem _ hc)

theorem scanArith_append (reg : Pattern) (f : List (List Nat) → List Nat) :
    ∀ (fuel : Nat) (src_copy : List Nat) (base : Nat) (jobs : List ReplaceJob),
      scanArith reg f fuel src_copy base jobs =
        (scanArith reg f fuel src_copy base []).map (fun more => jobs ++ more) := by
  intro fuel
  induction fuel with
  | zero => intro _ _ _; rfl
  | succ fuel ih =>
    intro src_copy base jobs
    unfold scanArith
    cases hm : reg src_copy with
    | none => simp
    | some sm =>
      simp only [List.nil_append]
      rw [ih _ _ (jobs ++ _), ih _ _ [_]]
      cases scanArith reg f fuel (src_copy.drop (sm.position + sm.length))
        (sm.position + base + sm.length) [] with
      | none => rfl
      | some more => simp

/-- The jobs of the arithmetic scan are in ascending order inside the buffer, and the buffer
with their spans replaced is the direct rewrite. -/
theorem scanArith_spliced (source : List Nat) (reg : Pattern) (f : List (List Nat) → List Nat)
    (hwf : reg.WellFormed) :
    ∀ (fuel base : Nat), base ≤ source.length →
      match scanArith reg f fuel (source.drop base) base [] with
      | none => rewriteAll reg f fuel (source.drop base) = none
      | some jobs => SpansAscending source.length base jobs ∧
          rewriteAll reg f fuel (source.drop base) =
            some (spliced source base jobs, !jobs.isEmpty) := by
  intro fuel
  induction fuel with
  | zero => intro base _; rfl
  | succ fuel ih =>
    intro base hbase
    unfold scanArith rewriteAll
    cases hm : reg (source.drop base) with
    | none => exact ⟨hbase, rfl⟩
    | some sm =>
      have h1 := hwf _ _ hm
      rw [List.length_drop] at h1
      have hd : (source.drop base).drop (sm.position + sm.length) =
          source.drop (sm.position + base + sm.length) := by
        rw [List.drop_drop]
        congr 1
        omega
      have := ih (sm.position + base + sm.length) (by omega)
      simp only [List.nil_append]
      rw [scanArith_append, hd]
      cases hs : scanArith reg f fuel (source.drop (sm.position + base + sm.length))
        (sm.position + base + sm.length) [] with
      | none =>
        rw [hs] at this
        simp only [Option.map_none']
        rw [this]
      | some more =>
        rw [hs] at this
        obtain ⟨hasc, hrw⟩ := this
        simp only [Option.map_some']
        rw [hrw]
        refine ⟨⟨Nat.le_add_left _ _, hasc⟩, ?_⟩
        simp only [List.singleton_append, spliced, Nat.add_sub_cancel, List.isEmpty_cons,
          Bool.not_false]
        rfl

/-- The arithmetic scan followed by the splices is the direct rewrite. -/
theorem transformArith_eq_rewriteAll (fuel : Nat) (source : List Nat) (reg : Pattern)
    (f : List (List Nat) → List Nat) (hwf : reg.WellFormed) :
    transformArith fuel source reg f = (rewriteAll reg f fuel source).map .ok := by
  have h := scanArith_spliced source reg f hwf fuel 0 (Nat.zero_le _)
  simp only [List.drop_zero] at h
  unfold transformArith
  cases hs : scanArith reg f fuel source 0 [] with
  | none =>
    rw [hs] at h
    rw [h]
    rfl
  | some jobs =>
    rw [hs] at h
    obtain ⟨hasc, hrw⟩ := h
    have := applyReplacements_eq_spliced source jobs 0 hasc
    simp only [List.take_zero, List.nil_append] at this
    simp only [this, hrw, Option.map_some']

/-- Function `transform` in terms of the scan of the arithmetic reference. -/
theorem transform_eq_transformArith (debug : Bool) (fuel : Nat) (source : List Nat)
    (reg : Pattern) (f : List (List Nat) → List Nat) (hwf : reg.WellFormed)
    (hne : reg.NonEmptyMatches)
    (huniq : ∀ copy ∈ workingCopies reg fuel source, reg copy ≠ none →
      std.find source copy + copy.length = source.length) :
    transform debug fuel source reg f = transformArith fuel source reg f := by
  have h := scan_eq_scanArith debug source reg f hwf hne fuel source 0 0 []
    (Nat.zero_add _) (fun _ => rfl) huniq
  unfold transform transformArith
  rw [h]
  cases scanArith reg f fuel source 0 [] with
  | none => rfl
  | some jobs =>
    simp only [Option.map_some']

end textc

/-! ## The record of the scan loop -/

namespace textc

/-- The recorded loop computes what `scan` computes; the calls it adds are those for the matches
it adds, one for each match in order with the groups after group 0, the last match being left
without a call only where the `textc_assert` fails; and the replacements of the new jobs are
the values of the calls. -/
theorem scanLogged_spec (debug : Bool) (source : List Nat) (reg : Pattern)
    (f : List (List Nat) → List Nat) :
    ∀ (fuel : Nat) (src_copy : List Nat) (src_pos_counter : Nat) (jobs : List ReplaceJob)
      (log : ScanLog),
      (scanLogged debug source reg f fuel src_copy src_pos_counter jobs log).2 =
        scan debug source reg f fuel src_copy src_pos_counter jobs ∧
      ∃ found calls,
        (scanLogged debug source reg f fuel src_copy src_pos_counter jobs log).1 =
          ⟨log.found ++ found, log.calls ++ calls⟩ ∧
        calls = (found.take calls.length).map (fun sm => sm.subs.drop 1) ∧
        (scan debug source reg f fuel src_copy src_pos_counter jobs ≠ some .assertFailure →
          calls.length = found.length) ∧
        ∀ jobs', scan debug source reg f fuel src_copy src_pos_counter jobs = some (.ok jobs') →
          ∃ more, jobs' = jobs ++ more ∧ more.map (fun job => job.2) = calls.map f := by
  intro fuel
  induction fuel with
  | zero =>
    intro src_copy spc jobs log
    exact ⟨rfl, [], [], by simp [scanLogged], rfl, fun _ => rfl, fun jobs' h => by simp [scan] at h⟩
  | succ fuel ih =>
    intro src_copy spc jobs log
    unfold scanLogged scan
    cases hm : reg src_copy with
    | none =>
      refine ⟨rfl, [], [], by simp, rfl, fun _ => rfl, ?_⟩
      intro jobs' h
      simp only [Option.some.injEq, Outcome.ok.injEq] at h
      exact ⟨[], by simp [h], rfl⟩
    | some sm =>
      by_cases hpos : sm.position + spc < source.length
      · simp only [hpos, decide_True, Bool.not_true, Bool.and_false, Bool.false_eq_true,
          if_false]
        obtain ⟨h1, found, calls, h2, h3, h4, h5⟩ :=
          ih (src_copy.drop (sm.position + sm.length))
            (std.find source (src_copy.drop (sm.position + sm.length)))
            (jobs ++ [((sm.position + spc, sm.length), f (sm.subs.drop 1))])
            ⟨log.found ++ [sm], log.calls ++ [sm.subs.drop 1]⟩
        refine ⟨h1, sm :: found, sm.subs.drop 1 :: calls, ?_, ?_, ?_, ?_⟩
        · rw [h2]
          simp
        · simp only [List.length_cons, List.take_succ_cons, List.map_cons, List.cons.injEq,
            true_and]
          exact h3
        · intro hne
          simp only [List.length_cons, Nat.add_right_cancel_iff]
          exact h4 hne
        · intro jobs' hj
          obtain ⟨more, hm1, hm2⟩ := h5 jobs' hj
          refine ⟨((sm.position + spc, sm.length), f (sm.subs.drop 1)) :: more, ?_, ?_⟩
          · rw [hm1]
            simp
          · simp only [List.map_cons, hm2]
      · cases debug with
        | true =>
          simp only [hpos, decide_False, Bool.not_false, Bool.and_true, if_true]
          refine ⟨trivial, [sm], [], by simp, rfl, fun h => absurd rfl h, ?_⟩
          intro jobs' h
          simp at h
        | false =>
          simp only [Bool.false_and, Bool.false_eq_true, if_false]
          obtain ⟨h1, found, calls, h2, h3, h4, h5⟩ :=
            ih (src_copy.drop (sm.position + sm.length))
              (std.find source (src_copy.drop (sm.position + sm.length)))
              (jobs ++ [((sm.position + spc, sm.length), f (sm.subs.drop 1))])
              ⟨log.found ++ [sm], log.calls ++ [sm.subs.drop 1]⟩
          refine ⟨h1, sm :: found, sm.subs.drop 1 :: calls, ?_, ?_, ?_, ?_⟩
          · rw [h2]
            simp
          · simp only [List.length_cons, List.take_succ_cons, List.map_cons, List.cons.injEq,
              true_and]
            exact h3
          · intro hne
            simp only [List.length_cons, Nat.add_right_cancel_iff]
            exact h4 hne
          · intro jobs' hj
            obtain ⟨more, hm1, hm2⟩ := h5 jobs' hj
            refine ⟨((sm.position + spc, sm.length), f (sm.subs.drop 1)) :: more, ?_, ?_⟩
            · rw [hm1]
              simp
            · simp only [List.map_cons, hm2]

/-- A build without the check never ends in a failed `textc_assert`. -/
theorem scan_release_no_assert (source : List Nat) (reg : Pattern)
    (f : List (List Nat) → List Nat) :
    ∀ (fuel : Nat) (src_copy : List Nat) (src_pos_counter : Nat) (jobs : List ReplaceJob),
      scan false source reg f fuel src_copy src_pos_counter jobs ≠ some .assertFailure := by
  intro fuel
  induction fuel with
  | zero => intro _ _ _ h; simp [scan] at h
  | succ fuel ih =>
    intro src_copy spc jobs
    unfold scan
    cases hm : reg src_copy with
    | none => simp
    | some sm =>
      simp only [Bool.false_and, Bool.false_eq_true, if_false]
      exact ih _ _ _

/-- In a run that a failed `textc_assert` ends, exactly one match, the last, has no call. -/
theorem scanLogged_abort_lengths (debug : Bool) (source : List Nat) (reg : Pattern)
    (f : List (List Nat) → List Nat) :
    ∀ (fuel : Nat) (src_copy : List Nat) (src_pos_counter : Nat) (jobs : List ReplaceJob)
      (log : ScanLog),
      scan debug source reg f fuel src_copy src_pos_counter jobs = some .assertFailure →
      (scanLogged debug source reg f fuel src_copy src_pos_counter jobs log).1.found.length
          + log.calls.length =
        (scanLogged debug source reg f fuel src_copy src_pos_counter jobs log).1.calls.length
          + log.found.length + 1 := by
  intro fuel
  induction fuel with
  | zero => intro _ _ _ _ h; simp [scan] at h
  | succ fuel ih =>
    intro src_copy spc jobs log h
    unfold scan at h
    unfold scanLogged
    cases hm : reg src_copy with
    | none => rw [hm] at h; simp at h
    | some sm =>
      rw [hm] at h
      by_cases hpos : sm.position + spc < source.length
      · simp only [hpos, decide_True, Bool.not_true, Bool.and_false, Bool.false_eq_true,
          if_false] at h ⊢
        have := ih _ _ _ ⟨log.found ++ [sm], log.calls ++ [sm.subs.drop 1]⟩ h
        simp only [List.length_append, List.length_singleton] at this
        omega
      · cases debug with
        | true =>
          simp only [hpos, decide_False, Bool.not_false, Bool.and_true, if_true,
            List.length_append, List.length_singleton]
          omega
        | false =>
          simp only [Bool.false_and, Bool.false_eq_true, if_false] at h ⊢
          have := ih _ _ _ ⟨log.found ++ [sm], log.calls ++ [sm.subs.drop 1]⟩ h
          simp only [List.length_append, List.length_singleton] at this
          omega

end textc

/-! ## Reading the byte list back -/

theorem splitCommas_of_no_comma : ∀ (piece : List Nat), 44 ∉ piece → splitCommas piece = [piece] := by
  intro piece
  induction piece with
  | nil => intro _; rfl
  | cons c piece ih =>
    intro h
    have hc : c ≠ 44 := fun e => h (by rw [e]; exact List.mem_cons_self _ _)
    rw [splitCommas, if_neg hc, ih (fun hm => h (List.mem_cons_of_mem _ hm))]

theorem splitCommas_append_comma :
    ∀ (piece rest : List Nat), 44 ∉ piece →
      splitCommas (piece ++ 44 :: rest) = piece :: splitCommas rest := by
  intro piece
  induction piece with
  | nil => intro rest _; simp [splitCommas]
  | cons c piece ih =>
    intro rest h
    have hc : c ≠ 44 := fun e => h (by rw [e]; exact List.mem_cons_self _ _)
    rw [List.cons_append, splitCommas, if_neg hc, ih rest (fun hm => h (List.mem_cons_of_mem _ hm))]

/-- Splitting at the commas gives back pieces that were joined with commas. -/
theorem splitCommas_intercalate :
    ∀ (pieces : List (List Nat)), pieces ≠ [] → (∀ piece ∈ pieces, 44 ∉ piece) →
      splitCommas ([44].intercalate pieces) = pieces := by
  intro pieces
  induction pieces with
  | nil => intro h _; exact absurd rfl h
  | cons x rest ih =>
    intro _ hfree
    cases rest with
    | nil =>
      have : [44].intercalate [x] = x := by simp [List.intercalate]
      rw [this]
      exact splitCommas_of_no_comma x (hfree x (List.mem_cons_self _ _))
    | cons y rest =>
      rw [intercalate_cons_cons, List.append_assoc, List.singleton_append,
        splitCommas_append_comma _ _ (hfree x (List.mem_cons_self _ _)),
        ih (by simp) (fun piece hp => hfree piece (List.mem_cons_of_mem _ hp))]

/-- Pieces without commas, joined with commas, have one comma less than there are pieces. -/
theorem count_comma_intercalate :
    ∀ (pieces : List (List Nat)), (∀ piece ∈ pieces, 44 ∉ piece) →
      ([44].intercalate pieces).count 44 = pieces.length - 1 := by
  intro pieces
  induction pieces with
  | nil => intro _; rfl
  | cons x rest ih =>
    intro hfree
    have hx : x.count 44 = 0 := List.count_eq_zero_of_not_mem (hfree x (List.mem_cons_self _ _))
    cases rest with
    | nil =>
      have : [44].intercalate [x] = x := by simp [List.intercalate]
      rw [this, hx]
      rfl
    | cons y rest =>
      rw [intercalate_cons_cons, List.count_append, List.count_append, hx,
        ih (fun piece hp => hfree piece (List.mem_cons_of_mem _ hp))]
      simp
      omega

theorem intercalate_ne_nil (x : List Nat) (rest : List (List Nat)) (hx : x ≠ []) :
    [44].intercalate (x :: rest) ≠ [] := by
  cases rest with
  | nil =>
    have : [44].intercalate [x] = x := by simp [List.intercalate]
    rw [this]
    exact hx
  | cons y rest =>
    rw [intercalate_cons_cons]
    simp [hx]

theorem parseNat_concat (digits : List Nat) (c : Nat) :
    parseNat (digits ++ [c]) = 10 * parseNat digits + (c - 48) := by
  simp [parseNat, List.foldl_append]

/-- Reading the digits of a number gives the number. -/
theorem parseNat_natDigits : ∀ (fuel n : Nat), n < fuel → parseNat (natDigits fuel n) = n := by
  intro fuel
  induction fuel with
  | zero => intro n h; exact absurd h (Nat.not_lt_zero _)
  | succ fuel ih =>
    intro n h
    unfold natDigits
    by_cases h10 : n < 10
    · rw [if_pos h10]
      simp [parseNat]
    · rw [if_neg h10, parseNat_concat, ih (n / 10) (by omega)]
      omega

/-- Reading a decimal rendering gives the integer. -/
theorem parseSigned_to_string (i : Int) : parseSigned (std.to_string i) = i := by
  unfold std.to_string parseSigned
  by_cases h : i < 0
  · rw [if_pos h]
    simp only [List.head?_cons, if_true, List.tail_cons]
    rw [parseNat_natDigits _ _ (Nat.lt_succ_self _)]
    omega
  · rw [if_neg h]
    have hhead : (natDigits (i.toNat + 1) i.toNat).head? ≠ some 45 := by
      intro h45
      have hmem := List.mem_of_mem_head? h45
      have := natDigits_chars _ _ 45 hmem
      omega
    rw [if_neg hhead, parseNat_natDigits _ _ (Nat.lt_succ_self _)]
    omega

theorem toInt8_mod (b : Nat) (h : b < 256) : (toInt8 b % 256).toNat = b := by
  unfold toInt8
  rw [Nat.mod_eq_of_lt h]
  split <;> omega

theorem to_string_no_comma (i : Int) : 44 ∉ std.to_string i := by
  intro h
  have := (to_string_chars i).2 44 h
  omega

/-- The decoder reads the output of `std_bytenise` back. -/
theorem decodeBytes_std_bytenise (binary_data : List Nat) (hbytes : ∀ b ∈ binary_data, b < 256) :
    decodeBytes (std_bytenise binary_data) = binary_data := by
  rw [std_bytenise_eq_intercalate]
  cases hb : binary_data with
  | nil => rfl
  | cons b rest =>
    rw [← hb]
    have hne : [44].intercalate (binary_data.map (fun b => std.to_string (toInt8 b))) ≠ [] := by
      rw [hb, List.map_cons]
      exact intercalate_ne_nil _ _ (to_string_chars _).1
    unfold decodeBytes
    rw [if_neg hne, splitCommas_intercalate _ (by rw [hb]; simp), List.map_map]
    · conv_rhs => rw [← List.map_id binary_data]
      apply List.map_congr_left
      intro c hc
      simp only [Function.comp, parseSigned_to_string, id]
      exact toInt8_mod c (hbytes c hc)
    · intro piece hp
      obtain ⟨c, _, rfl⟩ := List.mem_map.mp hp
      exact to_string_no_comma _

/-! ## Lemmas for `headerify` and for literal patterns -/

/-- The identifier of `headerify` is derived for every file name. -/
theorem headerifyIdentifier_total (debug : Bool) (fuel : Nat) (filename : List Nat)
    (hfuel : filename.length < fuel) :
    ∃ identifier, headerifyIdentifier debug fuel filename = some (.ok identifier) := by
  obtain ⟨out, hout⟩ := textc.transform_total debug fuel filename (std.regex_search pathRegex)
    (fun inner => inner.getD 0 [] ++ str "_" ++ inner.getD 1 [])
    (std.regex_search_wellFormed _) pathRegex_nonEmptyMatches hfuel
  refine ⟨std.regex_replace out.1 dotRegex (str "_"), ?_⟩
  unfold headerifyIdentifier
  rw [hout]

/-- A literal pattern of at least one character has no empty match. -/
theorem literal_nonEmptyMatches (c : Nat) (text : List Nat) :
    (std.regex_search (std.literal (c :: text))).NonEmptyMatches := by
  intro s sm h
  obtain ⟨_, _, t, r, _, hm, hl⟩ := std.searchFrom_bounds _ s 0 sm h
  rw [hl]
  cases t with
  | nil => simp [std.literal, std.matchHere] at hm
  | cons d u =>
    simp only [std.literal, List.map_cons, std.matchHere_one_cons] at hm
    by_cases hc : (d == c) = true
    · rw [if_pos hc] at hm
      cases hr : std.matchHere (List.map (fun c => (⟨fun d => d == c, .one, false⟩ : std.Atom))
          text) u with
      | none => rw [hr] at hm; simp at hm
      | some r1 =>
        rw [hr] at hm
        simp only [Option.map_some', Option.some.injEq] at hm
        subst hm
        exact Nat.succ_pos _
    · rw [if_neg hc] at hm
      simp at hm

/-- The scan loop for the empty pattern on `"abc"` is still running after any number of
iterations. -/
theorem scan_empty_pattern_abc (debug : Bool) (f : List (List Nat) → List Nat) :
    ∀ (fuel : Nat) (jobs : List textc.ReplaceJob),
      textc.scan debug (str "abc") (std.regex_search (std.literal (str ""))) f fuel
        (str "abc") 0 jobs = none := by
  intro fuel
  induction fuel with
  | zero => intro _; rfl
  | succ fuel ih =>
    intro jobs
    have hm : std.regex_search (std.literal (str "")) (str "abc") = some ⟨0, 0, [[]]⟩ := by
      decide
    have hfind : std.find (str "abc") (str "abc") = 0 := by decide
    have hlen : (0 : Nat) < (str "abc").length := by decide
    unfold textc.scan
    rw [hm]
    simp only [Nat.add_zero, hlen, decide_True, Bool.not_true, Bool.and_false,
      Bool.false_eq_true, if_false, List.drop_zero, hfind]
    exact ih _

/-! ## The claims, continued -/

/-- C11. For the empty input `std_bytenise` returns the empty string, and `headerify` produces
an array declaration of length zero with an empty initializer list and no comma: the text ends
with `std::array<std::int8_t, 0> `, the identifier and an empty pair of braces followed by a
semicolon. -/
theorem headerify_empty_text (debug : Bool) (fuel : Nat) (filename : List Nat)
    (hfuel : filename.length < fuel) :
    std_bytenise [] = [] ∧
    ∃ identifier,
      headerifyIdentifier debug fuel filename = some (.ok identifier) ∧
      headerify debug fuel filename [] =
        some (.ok (str "#include <cstdint>\n#include <array>\n/*textc_gen_header*/constexpr "
          ++ (str "std::array<std::int8_t, 0> " ++ identifier ++ str "\x7b\x7d;"))) := by
  refine ⟨rfl, ?_⟩
  obtain ⟨identifier, hid⟩ := headerifyIdentifier_total debug fuel filename hfuel
  refine ⟨identifier, hid, ?_⟩
  unfold headerify
  rw [hid]
  have e1 : str "#include <cstdint>\n#include <array>\n/*textc_gen_header*/constexpr std::array<std::int8_t, "
      ++ std.to_string (([] : List Nat).length : Int) ++ str "> " =
      str "#include <cstdint>\n#include <array>\n/*textc_gen_header*/constexpr "
        ++ str "std::array<std::int8_t, 0> " := by decide
  have e2 : str "\x7b" ++ std_bytenise [] ++ str "\x7d;" = str "\x7b\x7d;" := by decide
  dsimp only
  rw [List.append_assoc _ (str "\x7b"), List.append_assoc _ (str "\x7b" ++ std_bytenise []), e2,
    e1]
  simp only [List.append_assoc]

/-- Witness for C11: the file name `root/path_parent/filename.txt` with an empty file. -/
theorem headerify_empty_text_witness :
    std_bytenise [] = [] ∧
    ∃ identifier,
      headerifyIdentifier true 30 (str "root/path_parent/filename.txt") =
        some (.ok identifier) ∧
      headerify true 30 (str "root/path_parent/filename.txt") [] =
        some (.ok (str "#include <cstdint>\n#include <array>\n/*textc_gen_header*/constexpr "
          ++ (str "std::array<std::int8_t, 0> " ++ identifier ++ str "\x7b\x7d;"))) :=
  headerify_empty_text true 30 (str "root/path_parent/filename.txt") (by decide)

/-- C12 as stated fails. In a debug build the pattern `x*` finds the empty match at offset 0
of the empty buffer, the `textc_assert` fails on it, and the run ends with one match found and
no call of the replacement function. -/
theorem match_without_call_on_failed_assert :
    textc.scanLogged true [] (std.regex_search xStarRegex) (fun _ => str "b") 1 [] 0 []
      ⟨[], []⟩ = (⟨[⟨0, 0, [[]]⟩], []⟩, some .assertFailure) ∧
    ¬ ∀ (debug : Bool) (fuel : Nat) (source : List Nat) (reg : Pattern)
        (transform_function : List (List Nat) → List Nat),
      (textc.scanLogged debug source reg transform_function fuel source 0 [] ⟨[], []⟩).1.calls =
        (textc.scanLogged debug source reg transform_function fuel source 0 []
          ⟨[], []⟩).1.found.map (fun sm => sm.subs.drop 1) := by
  refine ⟨by decide, ?_⟩
  intro h
  have h1 := h true 1 [] (std.regex_search xStarRegex) (fun _ => str "b")
  exact absurd h1 (by decide)

/-- C12, amended. In a run of the scan loop of `textc::transform` the replacement function is
called exactly once for every match found on which the `textc_assert` does not fail, in the
order in which the matches are found, with the groups `sm[1]`, ..., `sm[sm.size() - 1]` of
that match: group 0 is not passed and the argument list has one element less than the match
has groups. The replacement of every job is the value of the call for its match. No match is
left without a call in a build without the check, nor in any run that does not end in a failed
`textc_assert`; a run that does end so leaves exactly its last match without a call. -/
theorem transform_function_called_once_per_match (debug : Bool) (fuel : Nat)
    (source : List Nat) (reg : Pattern) (transform_function : List (List Nat) → List Nat) :
    (textc.scanLogged debug source reg transform_function fuel source 0 [] ⟨[], []⟩).2 =
      textc.scan debug source reg transform_function fuel source 0 [] ∧
    (textc.scanLogged debug source reg transform_function fuel source 0 [] ⟨[], []⟩).1.calls =
      ((textc.scanLogged debug source reg transform_function fuel source 0 [] ⟨[], []⟩).1.found.take
        (textc.scanLogged debug source reg transform_function fuel source 0 [] ⟨[], []⟩).1.calls.length).map
        (fun sm => sm.subs.drop 1) ∧
    (textc.scan debug source reg transform_function fuel source 0 [] ≠ some .assertFailure →
      (textc.scanLogged debug source reg transform_function fuel source 0 [] ⟨[], []⟩).1.calls =
        (textc.scanLogged debug source reg transform_function fuel source 0 [] ⟨[], []⟩).1.found.map
          (fun sm => sm.subs.drop 1)) ∧
    (debug = false →
      (textc.scanLogged debug source reg transform_function fuel source 0 [] ⟨[], []⟩).1.calls =
        (textc.scanLogged debug source reg transform_function fuel source 0 [] ⟨[], []⟩).1.found.map
          (fun sm => sm.subs.drop 1)) ∧
    (textc.scan debug source reg transform_function fuel source 0 [] = some .assertFailure →
      (textc.scanLogged debug source reg transform_function fuel source 0 [] ⟨[], []⟩).1.found.length =
        (textc.scanLogged debug source reg transform_function fuel source 0 []
          ⟨[], []⟩).1.calls.length + 1) ∧
    (∀ sm : std.smatch, (sm.subs.drop 1).length = sm.subs.length - 1) ∧
    (∀ jobs, textc.scan debug source reg transform_function fuel source 0 [] = some (.ok jobs) →
      jobs.map (fun job => job.2) =
        (textc.scanLogged debug source reg transform_function fuel source 0 [] ⟨[], []⟩).1.calls.map
          transform_function) := by
  have habort := textc.scanLogged_abort_lengths debug source reg transform_function fuel source
    0 [] ⟨[], []⟩
  obtain ⟨h1, found, calls, h2, h3, h4, h5⟩ :=
    textc.scanLogged_spec debug source reg transform_function fuel source 0 [] ⟨[], []⟩
  simp only [List.nil_append] at h2
  rw [h2] at habort ⊢
  have hall : textc.scan debug source reg transform_function fuel source 0 [] ≠
      some .assertFailure → calls = found.map (fun sm => sm.subs.drop 1) := by
    intro hne
    have hl := h4 hne
    rw [hl, List.take_length] at h3
    exact h3
  refine ⟨h1, h3, hall, ?_, ?_, fun sm => List.length_drop _ _, ?_⟩
  · intro hd
    subst hd
    exact hall (textc.scan_release_no_assert _ _ _ _ _ _ _)
  · intro ha
    have := habort ha
    simp only [List.length_nil, Nat.add_zero] at this
    exact this
  · intro jobs hj
    obtain ⟨more, hm1, hm2⟩ := h5 jobs hj
    rw [hm1]
    exact hm2

/-- Witness for C12: the path expression has two groups, and the one match in `a/b.c` gives
one call, with the groups `b` and `c` and without the whole match `a/b.c`. -/
theorem transform_function_called_once_per_match_witness :
    (textc.scanLogged true (str "a/b.c") (std.regex_search pathRegex) (fun _ => str "-") 2
      (str "a/b.c") 0 [] ⟨[], []⟩).1 =
      ⟨[⟨0, 5, [str "a/b.c", str "b", str "c"]⟩], [[str "b", str "c"]]⟩ ∧
    (textc.scanLogged true (str "a/b.c") (std.regex_search pathRegex) (fun _ => str "-") 2
      (str "a/b.c") 0 [] ⟨[], []⟩).2 =
      textc.scan true (str "a/b.c") (std.regex_search pathRegex) (fun _ => str "-") 2
        (str "a/b.c") 0 [] :=
  ⟨by decide,
    (transform_function_called_once_per_match true 2 (str "a/b.c") (std.regex_search pathRegex)
      (fun _ => str "-")).1⟩

/-- C13. For a pattern whose matches are not empty: if every working copy in which a further
match is found occurs in the original buffer first at its real place (its first occurrence
starts at `|buffer| - |copy|`), then `textc::transform` gives what the scan with the
arithmetically tracked offset gives, the original buffer with every successive left-to-right
match replaced by its replacement, and the flag tells whether there was a match. -/
theorem transform_eq_arithmetic_when_suffixes_unique (debug : Bool) (fuel : Nat)
    (source : List Nat) (reg : Pattern) (transform_function : List (List Nat) → List Nat)
    (hwf : reg.WellFormed) (hne : reg.NonEmptyMatches) (hfuel : source.length < fuel)
    (huniq : ∀ copy ∈ textc.workingCopies reg fuel source, reg copy ≠ none →
      std.find source copy + copy.length = source.length) :
    textc.transform debug fuel source reg transform_function =
      textc.transformArith fuel source reg transform_function ∧
    ∃ out, textc.rewriteAll reg transform_function fuel source = some out ∧
      textc.transform debug fuel source reg transform_function = some (.ok out) := by
  have h1 := textc.transform_eq_transformArith debug fuel source reg transform_function hwf hne
    huniq
  have h2 := textc.transformArith_eq_rewriteAll fuel source reg transform_function hwf
  obtain ⟨out, hout⟩ := textc.transform_total debug fuel source reg transform_function hwf hne
    hfuel
  refine ⟨h1, out, ?_, hout⟩
  rw [h1, h2] at hout
  cases hr : textc.rewriteAll reg transform_function fuel source with
  | none => rw [hr] at hout; simp at hout
  | some r =>
    rw [hr] at hout
    simp only [Option.map_some', Option.some.injEq, Outcome.ok.injEq] at hout
    rw [hout]

/-- Witness for C13: in `"aXbXc"` the working copy `"bXc"` occurs only at offset 2, and both
`X` are replaced. -/
theorem transform_eq_arithmetic_when_suffixes_unique_witness :
    textc.transform true 6 (str "aXbXc") (std.regex_search (std.literal (str "X")))
        (fun _ => str "--") =
      textc.transformArith 6 (str "aXbXc") (std.regex_search (std.literal (str "X")))
        (fun _ => str "--") ∧
    ∃ out, textc.rewriteAll (std.regex_search (std.literal (str "X"))) (fun _ => str "--") 6
        (str "aXbXc") = some out ∧
      textc.transform true 6 (str "aXbXc") (std.regex_search (std.literal (str "X")))
        (fun _ => str "--") = some (.ok out) :=
  transform_eq_arithmetic_when_suffixes_unique true 6 (str "aXbXc")
    (std.regex_search (std.literal (str "X"))) (fun _ => str "--")
    (std.regex_search_wellFormed _) (literal_nonEmptyMatches 88 []) (by decide) (by decide)

/-- C14. For a pattern whose matches are not empty, the scan loop of `textc::transform` exits,
in a debug build without a failed `textc_assert` and in a build without the check with the same
jobs, and the offset `pos` and the length `len` computed in every iteration satisfy
`pos < source.size()` and `pos + len <= source.size()`. -/
theorem scan_offsets_in_range (fuel : Nat) (source : List Nat) (reg : Pattern)
    (transform_function : List (List Nat) → List Nat)
    (hwf : reg.WellFormed) (hne : reg.NonEmptyMatches) (hfuel : source.length < fuel) :
    ∃ jobs,
      textc.scan true source reg transform_function fuel source 0 [] = some (.ok jobs) ∧
      textc.scan false source reg transform_function fuel source 0 [] = some (.ok jobs) ∧
      ∀ job ∈ jobs, job.1.1 < source.length ∧ job.1.1 + job.1.2 ≤ source.length := by
  obtain ⟨jobs, hscan, _, hjobs⟩ := textc.scan_result_bounds true source reg transform_function
    hwf hne fuel source 0 [] hfuel (List.suffix_refl _) (by omega)
  refine ⟨jobs, hscan, textc.scan_release_of_debug _ _ _ _ _ _ _ _ hscan, ?_⟩
  intro job hj
  rcases hjobs job hj with h | h
  · exact absurd h (List.not_mem_nil _)
  · exact ⟨h.1, h.2.1⟩

/-- Witness for C14: the pattern `a` on `"aa"`, where `source.find` mislocates the suffix. -/
theorem scan_offsets_in_range_witness :
    ∃ jobs,
      textc.scan true (str "aa") (std.regex_search (std.literal (str "a"))) (fun _ => str "b")
        3 (str "aa") 0 [] = some (.ok jobs) ∧
      textc.scan false (str "aa") (std.regex_search (std.literal (str "a"))) (fun _ => str "b")
        3 (str "aa") 0 [] = some (.ok jobs) ∧
      ∀ job ∈ jobs, job.1.1 < (str "aa").length ∧ job.1.1 + job.1.2 ≤ (str "aa").length :=
  scan_offsets_in_range 3 (str "aa") (std.regex_search (std.literal (str "a")))
    (fun _ => str "b") (std.regex_search_wellFormed _) (literal_nonEmptyMatches 97 [])
    (by decide)

/-- C15. For a pattern whose matches are not empty, every iteration of the scan loop of
`textc::transform` replaces the working copy by a strictly shorter string, the loop exits, and
it collects at most as many jobs as the buffer has characters. -/
theorem scan_terminates (debug : Bool) (source : List Nat) (reg : Pattern)
    (transform_function : List (List Nat) → List Nat)
    (hwf : reg.WellFormed) (hne : reg.NonEmptyMatches) :
    (∀ src_copy sm, reg src_copy = some sm →
      (src_copy.drop (sm.position + sm.length)).length < src_copy.length) ∧
    ∀ fuel, source.length < fuel →
      ∃ jobs, textc.scan debug source reg transform_function fuel source 0 [] =
          some (.ok jobs) ∧
        jobs.length ≤ source.length := by
  constructor
  · intro src_copy sm hm
    have h1 := hwf _ _ hm
    have h2 := hne _ _ hm
    rw [List.length_drop]
    omega
  · intro fuel hfuel
    obtain ⟨jobs, hscan, hcount, _⟩ := textc.scan_result_bounds debug source reg
      transform_function hwf hne fuel source 0 [] hfuel (List.suffix_refl _) (by omega)
    exact ⟨jobs, hscan, by simpa using hcount⟩

/-- Witness for C15: the pattern `X` on `"aXbXc"`. -/
theorem scan_terminates_witness :
    (∀ src_copy sm, std.regex_search (std.literal (str "X")) src_copy = some sm →
      (src_copy.drop (sm.position + sm.length)).length < src_copy.length) ∧
    ∀ fuel, (str "aXbXc").length < fuel →
      ∃ jobs, textc.scan true (str "aXbXc") (std.regex_search (std.literal (str "X")))
          (fun _ => str "-") fuel (str "aXbXc") 0 [] = some (.ok jobs) ∧
        jobs.length ≤ (str "aXbXc").length :=
  scan_terminates true (str "aXbXc") (std.regex_search (std.literal (str "X")))
    (fun _ => str "-") (std.regex_search_wellFormed _) (literal_nonEmptyMatches 88 [])

/-- C16. For the buffer `"abc"` and the empty pattern, which matches the empty string at offset
0 of the working copy, an iteration of the scan loop of `textc::transform` leaves the working
copy as it was, and the loop never exits: neither the scan nor `transform` completes with any
amount of fuel, in either build. -/
theorem scan_empty_pattern_never_exits (debug : Bool) (fuel : Nat)
    (transform_function : List (List Nat) → List Nat) :
    std.regex_search (std.literal (str "")) (str "abc") = some ⟨0, 0, [[]]⟩ ∧
    (str "abc").drop (0 + 0) = str "abc" ∧
    textc.scan debug (str "abc") (std.regex_search (std.literal (str ""))) transform_function
      fuel (str "abc") 0 [] = none ∧
    textc.transform debug fuel (str "abc") (std.regex_search (std.literal (str "")))
      transform_function = none := by
  have h := scan_empty_pattern_abc debug transform_function fuel []
  refine ⟨by decide, rfl, h, ?_⟩
  unfold textc.transform
  rw [h]

/-- C17. For a pattern whose matches are not empty and any replacement function, `transform`
returns: the scan loop exits with its jobs, and every splice of the reverse-order loop is made
at an offset that is at most the current length of the buffer, so none of them ends in
`std::out_of_range`. -/
theorem splices_never_out_of_range (debug : Bool) (fuel : Nat) (source : List Nat)
    (reg : Pattern) (transform_function : List (List Nat) → List Nat)
    (hwf : reg.WellFormed) (hne : reg.NonEmptyMatches) (hfuel : source.length < fuel) :
    ∃ jobs out,
      textc.scan debug source reg transform_function fuel source 0 [] = some (.ok jobs) ∧
      textc.applyReplacements jobs source = .ok out ∧
      textc.transform debug fuel source reg transform_function =
        some (.ok (out, !jobs.isEmpty)) := by
  obtain ⟨jobs, hscan, hfits⟩ := textc.scan_total debug source reg transform_function hwf hne
    fuel source 0 [] hfuel (List.suffix_refl _) (by omega) trivial
  obtain ⟨out, hout⟩ := textc.applyReversed_ok_of_fits source.length jobs.reverse 0 source
    hfits (Nat.le_refl _)
  refine ⟨jobs, out, hscan, hout, ?_⟩
  unfold textc.transform
  rw [hscan]
  have : textc.applyReplacements jobs source = .ok out := hout
  simp only [this]

/-- Witness for C17: the pattern `a` on `"aa"` with the empty replacement, where `source.find`
mislocates the suffix and every splice shortens the buffer. -/
theorem splices_never_out_of_range_witness :
    ∃ jobs out,
      textc.scan true (str "aa") (std.regex_search (std.literal (str "a"))) (fun _ => [])
        3 (str "aa") 0 [] = some (.ok jobs) ∧
      textc.applyReplacements jobs (str "aa") = .ok out ∧
      textc.transform true 3 (str "aa") (std.regex_search (std.literal (str "a")))
        (fun _ => []) = some (.ok (out, !jobs.isEmpty)) :=
  splices_never_out_of_range true 3 (str "aa") (std.regex_search (std.literal (str "a")))
    (fun _ => []) (std.regex_search_wellFormed _) (literal_nonEmptyMatches 97 []) (by decide)

/-- C18. The output of `std_bytenise` can be read back: split at the commas (the empty output
giving the empty list), every piece read as a signed decimal integer and reduced modulo 256,
it gives the original byte sequence. So `std_bytenise` is injective on byte sequences, and for
a non-empty input of `n` bytes the output has `n - 1` commas. -/
theorem std_bytenise_decodable (binary_data : List Nat) (hbytes : ∀ b ∈ binary_data, b < 256) :
    decodeBytes (std_bytenise binary_data) = binary_data ∧
    (∀ other : List Nat, (∀ b ∈ other, b < 256) →
      std_bytenise other = std_bytenise binary_data → other = binary_data) ∧
    (binary_data ≠ [] → (std_bytenise binary_data).count 44 = binary_data.length - 1) := by
  refine ⟨decodeBytes_std_bytenise binary_data hbytes, ?_, ?_⟩
  · intro other hother heq
    rw [← decodeBytes_std_bytenise other hother, heq,
      decodeBytes_std_bytenise binary_data hbytes]
  · intro _
    rw [std_bytenise_eq_intercalate, count_comma_intercalate, List.length_map]
    intro piece hp
    obtain ⟨c, _, rfl⟩ := List.mem_map.mp hp
    exact to_string_no_comma _

/-- Witness for C18: the bytes `0x00, 0x41, 0xFF, 0x80`. -/
theorem std_bytenise_decodable_witness :
    std_bytenise [0x00, 0x41, 0xFF, 0x80] = str "0,65,-1,-128" ∧
    decodeBytes (std_bytenise [0x00, 0x41, 0xFF, 0x80]) = [0x00, 0x41, 0xFF, 0x80] ∧
    (std_bytenise [0x00, 0x41, 0xFF, 0x80]).count 44 = 3 :=
  ⟨by decide, (std_bytenise_decodable [0x00, 0x41, 0xFF, 0x80] (by decide)).1,
    (std_bytenise_decodable [0x00, 0x41, 0xFF, 0x80] (by decide)).2.2 (by decide)⟩
